import Mathlib

/-!
# RusTMP — verification of the RTMP ingest core

A shallow embedding of the RusTMP repository (an RTMP ingest endpoint with
stream-health diagnostics) together with proofs and refutations of the
properties stated in its specification.

Conventions used throughout:

* Bytes are modelled as `Nat` values below 256; byte sequences as `List Nat`.
* Machine integers are `Nat` with an explicit `% 2 ^ w` where the source
  performs wrapping arithmetic.
* Rust strings are modelled by their UTF-8 byte sequences (`List Nat`).
  `String::from_utf8_lossy` is the identity on valid UTF-8, which is the only
  form it is applied to in the properties treated here, so it is modelled as
  the identity on the byte list.
* `f64` values are modelled by their 64-bit patterns (`Nat` below `2 ^ 64`);
  the AMF0 codec treats doubles purely as opaque 8-byte big-endian strings
  (`f64::to_be_bytes` / `from_be_bytes`), which are inverse bijections on bit
  patterns.
* Methods taking `&mut self` become functions from the state to the new state
  (paired with the return value); `Instant::now()` becomes an explicit time
  parameter.
-/

/-! ## Byte-sequence primitives -/

/-- Big-endian 16-bit read at `p`: mirrors `u16::from_be_bytes`. -/
def be16At (l : List Nat) (p : Nat) : Nat :=
  (l.getD p 0) * 256 + l.getD (p + 1) 0

/-- Big-endian 24-bit read at `p`: mirrors `(b0 << 16) | (b1 << 8) | b2`. -/
def be24At (l : List Nat) (p : Nat) : Nat :=
  (l.getD p 0) * 65536 + (l.getD (p + 1) 0) * 256 + l.getD (p + 2) 0

/-- Big-endian 32-bit read at `p`: mirrors `u32::from_be_bytes`. -/
def be32At (l : List Nat) (p : Nat) : Nat :=
  (l.getD p 0) * 16777216 + (l.getD (p + 1) 0) * 65536 +
    (l.getD (p + 2) 0) * 256 + l.getD (p + 3) 0

/-- Little-endian 32-bit read at `p`: mirrors `u32::from_le_bytes`. -/
def le32At (l : List Nat) (p : Nat) : Nat :=
  l.getD p 0 + (l.getD (p + 1) 0) * 256 + (l.getD (p + 2) 0) * 65536 +
    (l.getD (p + 3) 0) * 16777216

/-- Big-endian 16-bit byte string of `n % 2 ^ 16`: mirrors `u16::to_be_bytes`. -/
def be16Bytes (n : Nat) : List Nat :=
  [n / 256 % 256, n % 256]

/-- Big-endian 32-bit byte string of `n % 2 ^ 32`: mirrors `u32::to_be_bytes`. -/
def be32Bytes (n : Nat) : List Nat :=
  [n / 16777216 % 256, n / 65536 % 256, n / 256 % 256, n % 256]

/-! ## `src/rtmp/chunk.rs` — ChunkReader

The reassembler for the RTMP chunk format.  `try_read_chunk` takes
`&mut self` and can mutate per-chunk-stream state before any of its early
`return None` exits, so the embedding returns the post-call reader state in
every case, faithfully recording which mutations have happened at each exit
point. -/

/-- A fully reassembled RTMP message (`RtmpMessage` in `chunk.rs`). -/
structure RtmpMessage where
  timestamp : Nat
  typeId : Nat
  streamId : Nat
  payload : List Nat
deriving DecidableEq, Repr

/-- Per-chunk-stream reassembly state (`ChunkStreamState` in `chunk.rs`). -/
structure ChunkStreamState where
  timestamp : Nat
  timestampDelta : Nat
  messageLength : Nat
  typeId : Nat
  streamId : Nat
  buffer : List Nat
deriving DecidableEq, Repr

/-- `ChunkStreamState::default()`. -/
def ChunkStreamState.dflt : ChunkStreamState :=
  ⟨0, 0, 0, 0, 0, []⟩

/-- The chunk reader (`ChunkReader` in `chunk.rs`).  The `HashMap<u32, _>` of
per-stream states is modelled as a total function from cs_id to state with
`ChunkStreamState::default()` as the initial value everywhere; the only map
access in the source is `entry(cs_id).or_default()`, for which this is
observationally identical. -/
structure ChunkReader where
  states : Nat → ChunkStreamState
  maxChunkSize : Nat
  buf : List Nat

/-- `ChunkReader::new()`. -/
def ChunkReader.new : ChunkReader :=
  ⟨fun _ => ChunkStreamState.dflt, 128, []⟩

/-- `ChunkReader::extend` — append incoming bytes to the internal buffer. -/
def ChunkReader.feed (r : ChunkReader) (data : List Nat) : ChunkReader :=
  { r with buf := r.buf ++ data }

/-- Point update of the cs_id-to-state map (writing through the
`entry(cs_id).or_default()` mutable reference). -/
def updState (m : Nat → ChunkStreamState) (k : Nat) (v : ChunkStreamState) :
    Nat → ChunkStreamState :=
  fun k' => if k' = k then v else m k'

/-- Basic-header parse of `try_read_chunk` (chunk.rs lines 89-120): returns
`(fmt, cs_id, pos)` after the 1-3 byte basic header, or `none` when the
buffer is too short (the source returns `None` with no state change). -/
def parseBasicHeader (buf : List Nat) : Option (Nat × Nat × Nat) :=
  if buf.length = 0 then none
  else if buf.getD 0 0 &&& 0x3F = 0 then
    if 1 ≥ buf.length then none
    else some ((buf.getD 0 0 >>> 6) &&& 0x03, buf.getD 1 0 + 64, 2)
  else if buf.getD 0 0 &&& 0x3F = 1 then
    if 1 + 1 ≥ buf.length then none
    else some ((buf.getD 0 0 >>> 6) &&& 0x03, buf.getD 1 0 + (buf.getD 2 0) * 256 + 64, 3)
  else some ((buf.getD 0 0 >>> 6) &&& 0x03, buf.getD 0 0 &&& 0x3F, 1)

/-- Message-header byte count per fmt (chunk.rs lines 123-129). -/
def headerSizeOf (fmt : Nat) : Nat :=
  if fmt = 0 then 11 else if fmt = 1 then 7 else if fmt = 2 then 3 else 0

/-- The in-place writes of the fmt 0/1/2/3 message-header arms
(chunk.rs lines 140-183): fmt 0 sets length/type/stream id, fmt 1 sets
length/type, fmt 2/3 write nothing. -/
def applyMsgHeader (st : ChunkStreamState) (fmt : Nat) (buf : List Nat) (pos1 : Nat) :
    ChunkStreamState :=
  if fmt = 0 then
    { st with
      messageLength := be24At buf (pos1 + 3)
      typeId := buf.getD (pos1 + 6) 0
      streamId := le32At buf (pos1 + 7) }
  else if fmt = 1 then
    { st with
      messageLength := be24At buf (pos1 + 3)
      typeId := buf.getD (pos1 + 6) 0 }
  else st

/-- The local `timestamp_field` right after the message-header arms:
the 3-byte big-endian field for fmt 0/1/2, the stored delta for fmt 3. -/
def rawTimestampField (st : ChunkStreamState) (fmt : Nat) (buf : List Nat) (pos1 : Nat) : Nat :=
  if fmt = 3 then st.timestampDelta else be24At buf pos1

/-- The timestamp update after reading a chunk (chunk.rs lines 208-221):
fmt 0 sets the absolute timestamp and clears the delta, fmt 1/2 record the
delta and add it, fmt 3 re-applies the stored delta (u32 wrapping add). -/
def applyTimestamp (st : ChunkStreamState) (fmt : Nat) (timestampField : Nat) :
    ChunkStreamState :=
  if fmt = 0 then { st with timestamp := timestampField, timestampDelta := 0 }
  else if fmt = 1 ∨ fmt = 2 then
    { st with
      timestampDelta := timestampField
      timestamp := (st.timestamp + timestampField) % 2 ^ 32 }
  else { st with timestamp := (st.timestamp + st.timestampDelta) % 2 ^ 32 }

/-- The tail of `try_read_chunk` after the extended-timestamp bytes: the
timestamp update (chunk.rs lines 208-221) followed by the chunk-data read
(lines 229-255).  `tf` is the final timestamp field (after extension),
`pos3` the position of the chunk data.  On the short-buffer return the
timestamp update has already been written through the entry; the chunk data
is `min(max_chunk_size, message_length - buffer.len())` bytes
(`saturating_sub` is Nat subtraction; `Vec::reserve` has no observable
effect and is omitted). -/
def finishChunk (r : ChunkReader) (csId fmt : Nat) (st1 : ChunkStreamState)
    (tf pos3 : Nat) : ChunkReader × Option (Option RtmpMessage) :=
  let st2 := applyTimestamp st1 fmt tf
  let chunkDataSize := min (st2.messageLength - st2.buffer.length) r.maxChunkSize
  if pos3 + chunkDataSize > r.buf.length then
    ({ r with states := updState r.states csId st2 }, none)
  else
    let st3 : ChunkStreamState :=
      { st2 with buffer := st2.buffer ++ (r.buf.drop pos3).take chunkDataSize }
    let newBuf := r.buf.drop (pos3 + chunkDataSize)
    if st3.buffer.length ≥ st3.messageLength then
      (⟨updState r.states csId { st3 with buffer := [] }, r.maxChunkSize, newBuf⟩,
        some (some ⟨st3.timestamp, st3.typeId, st3.streamId, st3.buffer⟩))
    else
      (⟨updState r.states csId st3, r.maxChunkSize, newBuf⟩, some none)

/-- `ChunkReader::try_read_chunk`.  Returns the post-call reader and
`none` when the source returns `None` (not enough data), `some none` for a
consumed chunk that did not complete a message, `some (some msg)` for a
completed message.  The source writes through the state entry before some of
its early returns; the returned reader reflects exactly the writes performed
on each path. -/
def ChunkReader.tryReadChunk (r : ChunkReader) : ChunkReader × Option (Option RtmpMessage) :=
  match parseBasicHeader r.buf with
  | none => (r, none)
  | some (fmt, csId, pos1) =>
    if pos1 + headerSizeOf fmt > r.buf.length then (r, none)
    else
      -- `states.entry(cs_id).or_default()`, then the message-header writes.
      let st1 := applyMsgHeader (r.states csId) fmt r.buf pos1
      let tf := rawTimestampField (r.states csId) fmt r.buf pos1
      let pos2 := pos1 + headerSizeOf fmt
      -- Extended timestamp: present when the (local) timestamp field reads
      -- 0xFFFFFF; for fmt 3 the field is the previously stored delta.  On
      -- the short-buffer return the message-header writes have already
      -- happened.
      if tf = 0xFFFFFF then
        if pos2 + 4 > r.buf.length then
          ({ r with states := updState r.states csId st1 }, none)
        else finishChunk r csId fmt st1 (be32At r.buf pos2) (pos2 + 4)
      else finishChunk r csId fmt st1 tf pos2

/-- The `loop` body of `ChunkReader::read_messages`, with explicit fuel. -/
def readMessagesAux : Nat → ChunkReader → ChunkReader × List RtmpMessage
  | 0, r => (r, [])
  | fuel + 1, r =>
    match r.tryReadChunk with
    | (r', none) => (r', [])
    | (r', some m) =>
      let rec2 := readMessagesAux fuel r'
      (rec2.1, (match m with | some msg => [msg] | none => []) ++ rec2.2)

/-- `ChunkReader::read_messages` — drain complete chunks from the buffer.
Every consumed chunk removes at least one byte from the buffer (the basic
header is nonempty), so `buf.length + 1` loop iterations always reach the
`None` exit of the source loop; see `tryReadChunk_consumes`. -/
def ChunkReader.readMessages (r : ChunkReader) : ChunkReader × List RtmpMessage :=
  readMessagesAux (r.buf.length + 1) r

/-- A successful basic-header parse starts past byte 0 of a nonempty buffer. -/
theorem parseBasicHeader_pos (buf : List Nat) (fmt csId pos1 : Nat)
    (h : parseBasicHeader buf = some (fmt, csId, pos1)) :
    1 ≤ pos1 ∧ buf.length ≠ 0 := by
  unfold parseBasicHeader at h
  repeat' split at h
  all_goals simp only [Option.some.injEq, Prod.mk.injEq, reduceCtorEq] at h
  all_goals obtain ⟨-, -, hp⟩ := h
  all_goals omega

/-- A consumed chunk strictly shrinks the input buffer, so the fuel
`buf.length + 1` used by `readMessages` is enough to reach the `None` exit:
the embedded loop is the loop of the source. -/
theorem finishChunk_consumes (r r' : ChunkReader) (csId fmt : Nat)
    (st1 : ChunkStreamState) (tf pos3 : Nat) (m : Option RtmpMessage)
    (hpos : 1 ≤ pos3)
    (h : finishChunk r csId fmt st1 tf pos3 = (r', some m)) :
    r'.buf.length < r.buf.length := by
  unfold finishChunk at h
  try simp only at h
  repeat' split at h
  all_goals simp only [Prod.mk.injEq, reduceCtorEq, and_false] at h
  all_goals obtain ⟨h1, -⟩ := h
  all_goals rw [← h1]
  all_goals dsimp only
  all_goals simp only [List.length_drop]
  all_goals omega

theorem tryReadChunk_consumes (r r' : ChunkReader) (m : Option RtmpMessage)
    (h : r.tryReadChunk = (r', some m)) : r'.buf.length < r.buf.length := by
  unfold ChunkReader.tryReadChunk at h
  cases hb : parseBasicHeader r.buf with
  | none => rw [hb] at h; exact absurd (congrArg Prod.snd h) (by simp)
  | some t =>
    obtain ⟨fmt, csId, pos1⟩ := t
    obtain ⟨hpos1, hne⟩ := parseBasicHeader_pos r.buf fmt csId pos1 hb
    rw [hb] at h
    try simp only at h
    repeat' split at h
    all_goals try simp only [Prod.mk.injEq, reduceCtorEq, and_false] at h
    all_goals exact finishChunk_consumes r r' csId fmt _ _ _ m (by omega) h

/-! ### C1 and C4 — restartability and fmt-3 extended timestamps

The spec asserts that `read_messages()` is restartable (truncation mutates no
state and consumes nothing, so outputs are split-independent) and that a
fmt-3 chunk continuing a stream whose previous chunk used the extended
timestamp form starts with a 4-byte extended timestamp.  The source violates
both: the timestamp update (chunk.rs 208-221) runs before the payload-length
check (chunk.rs 232), so a truncation inside the payload re-applies the
delta on the next call; and the fmt-3 extended-timestamp test compares the
stored (already extended) delta against 0xFFFFFF instead of remembering
whether the previous chunk used the extended form. -/

/-- A fmt-0 chunk on cs_id 2: timestamp 0, message length 1, type 9,
stream id 0, one payload byte 0xAA. -/
def c1ChunkA : List Nat :=
  [0x02, 0, 0, 0, 0, 0, 1, 9, 0, 0, 0, 0, 0xAA]

/-- A fmt-1 chunk on cs_id 2: timestamp delta 5, message length 1, type 9,
one payload byte 0xBB. -/
def c1ChunkB : List Nat :=
  [0x42, 0, 0, 5, 0, 0, 1, 9, 0xBB]

/-- C1: `read_messages` is not restartable.  Feeding both chunks at once
yields the second message with timestamp 5 (delta applied once).  Feeding
the same 22 bytes split just before the fmt-1 payload byte makes
`try_read_chunk` update the stored timestamp, then hit the payload-length
check and return `None`; the retry applies delta 5 a second time, so the
second message comes out with timestamp 10.  The same total input, split
differently, produces different messages, refuting the no-mutation contract
and split-independence. -/
theorem c1_restart_bug :
    ((ChunkReader.new.feed (c1ChunkA ++ c1ChunkB)).readMessages).2 =
      [⟨0, 9, 0, [0xAA]⟩, ⟨5, 9, 0, [0xBB]⟩] ∧
    ((ChunkReader.new.feed (c1ChunkA ++ c1ChunkB.take 8)).readMessages).2 =
      [⟨0, 9, 0, [0xAA]⟩] ∧
    ((((ChunkReader.new.feed (c1ChunkA ++ c1ChunkB.take 8)).readMessages).1.feed
        (c1ChunkB.drop 8)).readMessages).2 =
      [⟨10, 9, 0, [0xBB]⟩] := by
  refine ⟨by decide, by decide, by decide⟩

/-- A fmt-0 chunk on cs_id 2 using the extended-timestamp form: 3-byte field
0xFFFFFF, message length 1, type 9, stream id 0, extended timestamp
0x01000000, one payload byte 0xAA. -/
def c4ChunkExt : List Nat :=
  [0x02, 0xFF, 0xFF, 0xFF, 0, 0, 1, 9, 0, 0, 0, 0, 0x01, 0, 0, 0, 0xAA]

/-- A fmt-3 continuation on cs_id 2 followed by what RTMP convention says is
its 4-byte extended timestamp (7) and a payload byte 0xBB. -/
def c4Fmt3 : List Nat :=
  [0xC2, 0x00, 0x00, 0x00, 0x07, 0xBB]

/-- C4: after a chunk that used the extended-timestamp form, a fmt-3
continuation is parsed without reading any extended timestamp.  The fmt-0
chunk stores timestamp 0x01000000 and delta 0, so the fmt-3 check
(stored delta = 0xFFFFFF) fails, and the byte 0x00 that the claim says is
the first extended-timestamp byte is consumed as the message payload: the
second message is ⟨0x01000000, 9, 0, [0x00]⟩ rather than a message whose
payload is 0xBB preceded by a 4-byte extended timestamp read. -/
theorem c4_fmt3_ext_bug :
    ((ChunkReader.new.feed (c4ChunkExt ++ c4Fmt3)).readMessages).2 =
      [⟨0x01000000, 9, 0, [0xAA]⟩, ⟨0x01000000, 9, 0, [0x00]⟩] := by
  decide

/-! ## `src/rtmp/chunk.rs` — ChunkWriter

Serialization of one outbound message into chunks.  `ChunkWriter::new()`
hard-codes `chunk_size = 4096`, so the writer state reduces to that
constant. -/

/-- Little-endian 32-bit byte string of `n % 2 ^ 32`: mirrors `u32::to_le_bytes`. -/
def le32Bytes (n : Nat) : List Nat :=
  [n % 256, n / 256 % 256, n / 65536 % 256, n / 16777216 % 256]

/-- `ChunkWriter::write_basic_header` (chunk.rs 313-325).  The final branch
is only reached for cs_id 0, 1 or ≥ 320; all call sites in the repository
use cs_id 2 or 3. -/
def writeBasicHeader (fmt csId : Nat) : List Nat :=
  if 2 ≤ csId ∧ csId ≤ 63 then [(fmt <<< 6) ||| csId]
  else if 64 ≤ csId ∧ csId ≤ 319 then [fmt <<< 6, csId - 64]
  else [(fmt <<< 6) ||| 1, (csId - 64) % 256, ((csId - 64) >>> 8) % 256]

/-- `ChunkWriter::write_fmt0_header` (chunk.rs 327-359): 3-byte timestamp
slot (0xFFFFFF when extended), 3-byte big-endian length, type id, 4-byte
little-endian stream id, then the 4-byte extended timestamp if needed. -/
def writeFmt0Header (timestamp msgLength typeId streamId : Nat) : List Nat :=
  (if timestamp ≥ 0xFFFFFF then [0xFF, 0xFF, 0xFF]
   else [(timestamp >>> 16) % 256, (timestamp >>> 8) % 256, timestamp % 256]) ++
    [(msgLength >>> 16) % 256, (msgLength >>> 8) % 256, msgLength % 256] ++
    [typeId] ++ le32Bytes streamId ++
    (if timestamp ≥ 0xFFFFFF then be32Bytes timestamp else [])

/-- The fmt-3 continuation chunks of `ChunkWriter::write_message`
(chunk.rs 285-308, iterations after the first): each carries the basic
header, the extended timestamp when `timestamp ≥ 0xFFFFFF`, and up to 4096
payload bytes. -/
def writeFmt3ChunksAux : Nat → Nat → Nat → List Nat → List Nat
  | 0, _, _, _ => []
  | fuel + 1, csId, timestamp, remaining =>
    if remaining.length = 0 then []
    else
      let t := min remaining.length 4096
      writeBasicHeader 3 csId ++
        (if timestamp ≥ 0xFFFFFF then be32Bytes timestamp else []) ++
        remaining.take t ++ writeFmt3ChunksAux fuel csId timestamp (remaining.drop t)

/-- Entry point for the continuation loop: each iteration consumes at least
one payload byte (`min(len, 4096) ≥ 1` for a nonempty remainder), so
`remaining.length` iterations always reach the `offset = msg_len` loop
exit. -/
def writeFmt3Chunks (csId timestamp : Nat) (remaining : List Nat) : List Nat :=
  writeFmt3ChunksAux remaining.length csId timestamp remaining

/-- `ChunkWriter::write_message` (chunk.rs 271-311): a fmt-0 first chunk of
up to 4096 payload bytes followed by fmt-3 continuations. -/
def writeMessage (csId timestamp typeId streamId : Nat) (payload : List Nat) : List Nat :=
  let t := min payload.length 4096
  writeBasicHeader 0 csId ++ writeFmt0Header timestamp payload.length typeId streamId ++
    payload.take t ++ writeFmt3Chunks csId timestamp (payload.drop t)

/-! ## `src/rtmp/message.rs` — MessageHandler.track_bytes (C6)

Only the fields that `track_bytes` reads or writes are modelled
(`window_ack_size`, `bytes_received`, `last_ack_sent`; all others are
untouched by it).  `bytes_received` is a `u64` accumulator, so the addition
wraps at `2 ^ 64`. -/

structure MessageHandler where
  windowAckSize : Nat
  bytesReceived : Nat
  lastAckSent : Nat
deriving DecidableEq, Repr

/-- `MessageHandler::new()` — default window 2,500,000, counters zero. -/
def MessageHandler.new : MessageHandler :=
  ⟨2500000, 0, 0⟩

/-- `MessageHandler::track_bytes` (message.rs 66-83): add `count`, and when
the window is positive and the bytes since the last ack reach the window,
record the ack point and emit a type-3 message on cs_id 2, stream 0, whose
payload is the running total truncated to u32, big-endian. -/
def MessageHandler.trackBytes (h : MessageHandler) (count : Nat) :
    MessageHandler × Option (List Nat) :=
  let bytes := (h.bytesReceived + count) % 2 ^ 64
  if h.windowAckSize > 0 ∧ bytes - h.lastAckSent ≥ h.windowAckSize then
    ({ h with bytesReceived := bytes, lastAckSent := bytes },
      some (writeMessage 2 0 3 0 (be32Bytes bytes)))
  else
    ({ h with bytesReceived := bytes }, none)

/-- Run a sequence of `track_bytes` calls, collecting the emitted acks in
order. -/
def runTrackBytes (h : MessageHandler) : List Nat → MessageHandler × List (List Nat)
  | [] => (h, [])
  | n :: rest =>
    match h.trackBytes n with
    | (h', none) => runTrackBytes h' rest
    | (h', some ack) =>
      let r := runTrackBytes h' rest
      (r.1, ack :: r.2)

/-- With the default 2,500,000 window, a run whose running total stays below
twice the window emits exactly one ack if the total since the last ack
reaches the window, none otherwise. -/
theorem runTrackBytes_one_window (calls : List Nat) (h : MessageHandler)
    (hw : h.windowAckSize = 2500000)
    (hwrap : h.bytesReceived + calls.sum < 2 ^ 64)
    (hle : h.lastAckSent ≤ h.bytesReceived)
    (hlt : h.bytesReceived - h.lastAckSent < 2500000)
    (hbound : h.bytesReceived + calls.sum - h.lastAckSent < 5000000) :
    ((runTrackBytes h calls).2).length =
      if 2500000 ≤ h.bytesReceived + calls.sum - h.lastAckSent then 1 else 0 := by
  induction calls generalizing h with
  | nil =>
    simp only [runTrackBytes, List.sum_nil, Nat.add_zero, List.length_nil]
    rw [if_neg (by omega)]
  | cons n rest ih =>
    simp only [List.sum_cons] at hwrap hbound ⊢
    have hmod : (h.bytesReceived + n) % 2 ^ 64 = h.bytesReceived + n :=
      Nat.mod_eq_of_lt (by omega)
    by_cases hC : 2500000 ≤ h.bytesReceived + n - h.lastAckSent
    · have htb : h.trackBytes n =
          (⟨h.windowAckSize, h.bytesReceived + n, h.bytesReceived + n⟩,
            some (writeMessage 2 0 3 0 (be32Bytes (h.bytesReceived + n)))) := by
        simp only [MessageHandler.trackBytes, hmod, hw]
        rw [if_pos ⟨by omega, hC⟩]
      simp only [runTrackBytes]
      rw [htb]
      simp only [List.length_cons]
      rw [ih ⟨h.windowAckSize, h.bytesReceived + n, h.bytesReceived + n⟩
        (by dsimp only; exact hw) (by dsimp only; omega) (by dsimp only; omega)
        (by dsimp only; omega) (by dsimp only; omega)]
      dsimp only
      split_ifs <;> omega
    · have htb : h.trackBytes n =
          (⟨h.windowAckSize, h.bytesReceived + n, h.lastAckSent⟩, none) := by
        simp only [MessageHandler.trackBytes, hmod, hw]
        rw [if_neg (by omega)]
      simp only [runTrackBytes]
      rw [htb]
      rw [ih ⟨h.windowAckSize, h.bytesReceived + n, h.lastAckSent⟩
        (by dsimp only; exact hw) (by dsimp only; omega) (by dsimp only; omega)
        (by dsimp only; omega) (by dsimp only; omega)]
      dsimp only
      split_ifs <;> omega

/-- C6 counterexample: `track_bytes` calls of 2,500,000 then 500,000 total
3,000,000 with the default window, yet the single acknowledgement carries
2,500,000 (the running total at the call that crossed the window) and
`last_ack_sent` ends at 2,500,000, not 3,000,000 as the claim asserts. -/
theorem c6_ack_counterexample :
    (runTrackBytes MessageHandler.new [2500000, 500000]).2 =
      [writeMessage 2 0 3 0 (be32Bytes 2500000)] ∧
    (runTrackBytes MessageHandler.new [2500000, 500000]).2 ≠
      [writeMessage 2 0 3 0 (be32Bytes 3000000)] ∧
    ((runTrackBytes MessageHandler.new [2500000, 500000]).1).lastAckSent = 2500000 := by
  refine ⟨by decide, by decide, by decide⟩

/-- C6 (amended): an ack is emitted on a call exactly when the window is
positive and the running total since the last ack reaches the window; the
ack is a type-3 message on cs_id 2, stream 0, whose payload is the 4-byte
big-endian running total (truncated to u32), and `last_ack_sent` is set to
the running total.  Any call sequence totaling 3,000,000 under the default
window emits exactly one ack, and a single call of 3,000,000 emits one ack
carrying 3,000,000 with `last_ack_sent = 3,000,000`. -/
theorem c6_track_bytes_window :
    (∀ (h : MessageHandler) (count : Nat),
      ((h.trackBytes count).2 ≠ none ↔
        0 < h.windowAckSize ∧
          h.windowAckSize ≤ (h.bytesReceived + count) % 2 ^ 64 - h.lastAckSent) ∧
      (0 < h.windowAckSize →
        h.windowAckSize ≤ (h.bytesReceived + count) % 2 ^ 64 - h.lastAckSent →
        (h.trackBytes count).2 =
            some (writeMessage 2 0 3 0
              (be32Bytes ((h.bytesReceived + count) % 2 ^ 64))) ∧
          ((h.trackBytes count).1).lastAckSent =
            (h.bytesReceived + count) % 2 ^ 64)) ∧
    (∀ calls : List Nat, calls.sum = 3000000 →
      ((runTrackBytes MessageHandler.new calls).2).length = 1) ∧
    ((MessageHandler.new.trackBytes 3000000).2 =
        some (writeMessage 2 0 3 0 (be32Bytes 3000000)) ∧
      ((MessageHandler.new.trackBytes 3000000).1).lastAckSent = 3000000) := by
  refine ⟨?_, ?_, by decide, by decide⟩
  · intro h count
    by_cases hC : 0 < h.windowAckSize ∧
        h.windowAckSize ≤ (h.bytesReceived + count) % 2 ^ 64 - h.lastAckSent
    · have htb : h.trackBytes count =
          (⟨h.windowAckSize, (h.bytesReceived + count) % 2 ^ 64,
              (h.bytesReceived + count) % 2 ^ 64⟩,
            some (writeMessage 2 0 3 0
              (be32Bytes ((h.bytesReceived + count) % 2 ^ 64)))) := by
        simp only [MessageHandler.trackBytes]
        rw [if_pos hC]
      rw [htb]
      constructor
      · simp only [ne_eq, reduceCtorEq, not_false_eq_true, true_iff]
        exact hC
      · exact fun _ _ => ⟨rfl, rfl⟩
    · have htb : h.trackBytes count =
          (⟨h.windowAckSize, (h.bytesReceived + count) % 2 ^ 64, h.lastAckSent⟩,
            none) := by
        simp only [MessageHandler.trackBytes]
        rw [if_neg hC]
      rw [htb]
      constructor
      · simp only [ne_eq, not_true_eq_false, false_iff]
        exact hC
      · exact fun h1 h2 => absurd ⟨h1, h2⟩ hC
  · intro calls hsum
    rw [runTrackBytes_one_window calls MessageHandler.new rfl
      (by rw [hsum]; decide) (Nat.le_refl _) (by decide) (by rw [hsum]; decide)]
    rw [hsum]
    decide

/-- C6 witness: three calls of 1,000,000 each (total 3,000,000) emit exactly
one acknowledgement. -/
theorem c6_track_bytes_window_witness :
    ((runTrackBytes MessageHandler.new [1000000, 1000000, 1000000]).2).length = 1 :=
  c6_track_bytes_window.2.1 [1000000, 1000000, 1000000] (by decide)

/-! ## `src/stats.rs` — StreamStats (C3, C8)

`Instant` is modelled as `Int` milliseconds passed explicitly to each
record call (`Instant::now()` is monotone, which becomes a hypothesis on
the call sequence where it matters).  Durations that the source keeps as
`f64` seconds (`duration_secs`, `keyframe_interval_secs`) are kept in exact
milliseconds.  The 2-second window duration is the constant 2000. -/

structure StreamStats where
  streamStart : Option Int
  durationMs : Int
  videoFrameTimes : List Int
  videoByteWindow : List (Int × Nat)
  audioByteWindow : List (Int × Nat)
  lastKeyframeTime : Option Int
  keyframeIntervalMs : Option Int
  totalVideoBytes : Nat
  totalAudioBytes : Nat
deriving DecidableEq, Repr

/-- `StreamStats::new()`. -/
def StreamStats.fresh : StreamStats :=
  ⟨none, 0, [], [], [], none, none, 0, 0⟩

/-- The front-trim loop shared by the three rolling windows: pop entries
from the front while the front key is strictly below the cutoff. -/
def trimFront {α : Type} (key : α → Int) (cutoff : Int) : List α → List α
  | [] => []
  | x :: rest => if key x < cutoff then trimFront key cutoff rest else x :: rest

/-- `StreamStats::record_video_frame` (stats.rs 42-77): set `stream_start`
on first sample, push `(now, _)` into the frame-time and video-byte
windows, add to `total_video_bytes` (u64), trim both video windows at
`now - 2s`, update keyframe interval bookkeeping, refresh duration. -/
def StreamStats.recordVideoFrame (s : StreamStats) (now : Int) (byteCount : Nat)
    (isKeyframe : Bool) : StreamStats :=
  let start := match s.streamStart with | none => now | some t => t
  { streamStart := some start
    durationMs := now - start
    videoFrameTimes := trimFront id (now - 2000) (s.videoFrameTimes ++ [now])
    videoByteWindow := trimFront Prod.fst (now - 2000) (s.videoByteWindow ++ [(now, byteCount)])
    audioByteWindow := s.audioByteWindow
    lastKeyframeTime := if isKeyframe then some now else s.lastKeyframeTime
    keyframeIntervalMs :=
      if isKeyframe then
        match s.lastKeyframeTime with
        | some lk => some (now - lk)
        | none => s.keyframeIntervalMs
      else s.keyframeIntervalMs
    totalVideoBytes := (s.totalVideoBytes + byteCount) % 2 ^ 64
    totalAudioBytes := s.totalAudioBytes }

/-- `StreamStats::record_audio_frame` (stats.rs 79-98): push into the
audio-byte window, add to `total_audio_bytes`, trim at `now - 2s`, refresh
duration. -/
def StreamStats.recordAudioFrame (s : StreamStats) (now : Int) (byteCount : Nat) :
    StreamStats :=
  let start := match s.streamStart with | none => now | some t => t
  { s with
    streamStart := some start
    durationMs := now - start
    audioByteWindow := trimFront Prod.fst (now - 2000) (s.audioByteWindow ++ [(now, byteCount)])
    totalAudioBytes := (s.totalAudioBytes + byteCount) % 2 ^ 64 }

/-- One element of a record-call sequence against `StreamStats`. -/
inductive StatsCall where
  | video (now : Int) (byteCount : Nat) (isKeyframe : Bool)
  | audio (now : Int) (byteCount : Nat)
deriving DecidableEq, Repr

def applyStatsCall (s : StreamStats) : StatsCall → StreamStats
  | .video n b k => s.recordVideoFrame n b k
  | .audio n b => s.recordAudioFrame n b

def runStats (s : StreamStats) : List StatsCall → StreamStats
  | [] => s
  | c :: rest => runStats (applyStatsCall s c) rest

/-- The `Instant::now()` value observed by a record call. -/
def StatsCall.time : StatsCall → Int
  | .video n _ _ => n
  | .audio n _ => n

/-- The byte count a call adds to `total_video_bytes` (0 for audio calls). -/
def StatsCall.videoBytes : StatsCall → Nat
  | .video _ b _ => b
  | .audio _ _ => 0

theorem trimFront_sublist {α : Type} (key : α → Int) (cutoff : Int) (l : List α) :
    (trimFront key cutoff l).Sublist l := by
  induction l with
  | nil => simp [trimFront]
  | cons x rest ih =>
    rw [trimFront]
    split
    · exact ih.trans (List.sublist_cons_self x rest)
    · exact List.Sublist.refl _

/-- On a front-sorted window, every entry surviving the front trim is at or
past the cutoff. -/
theorem trimFront_ge {α : Type} (key : α → Int) (cutoff : Int) (l : List α)
    (hs : l.Pairwise (fun a b => key a ≤ key b)) :
    ∀ x ∈ trimFront key cutoff l, cutoff ≤ key x := by
  induction l with
  | nil => simp [trimFront]
  | cons y rest ih =>
    rw [trimFront]
    rcases List.pairwise_cons.mp hs with ⟨hy, hrest⟩
    split
    · exact ih hrest
    · rename_i hge
      intro x hx
      rcases List.mem_cons.mp hx with rfl | hx
      · omega
      · exact le_trans (by omega) (hy x hx)

/-- All three windows are sorted by timestamp (they are in arrival order and
`Instant::now()` is monotone). -/
def windowsSorted (s : StreamStats) : Prop :=
  s.videoFrameTimes.Pairwise (· ≤ ·) ∧
    s.videoByteWindow.Pairwise (fun a b => a.1 ≤ b.1) ∧
    s.audioByteWindow.Pairwise (fun a b => a.1 ≤ b.1)

/-- All window timestamps are at most `T`. -/
def windowsLE (s : StreamStats) (T : Int) : Prop :=
  (∀ t ∈ s.videoFrameTimes, t ≤ T) ∧ (∀ p ∈ s.videoByteWindow, p.1 ≤ T) ∧
    (∀ p ∈ s.audioByteWindow, p.1 ≤ T)

theorem recordVideoFrame_step (s : StreamStats) (now : Int) (b : Nat) (kf : Bool)
    (T : Int) (hs : windowsSorted s) (hle : windowsLE s T) (hT : T ≤ now) :
    windowsSorted (s.recordVideoFrame now b kf) ∧
      windowsLE (s.recordVideoFrame now b kf) now ∧
      (∀ t ∈ (s.recordVideoFrame now b kf).videoFrameTimes, now - 2000 ≤ t) ∧
      (∀ p ∈ (s.recordVideoFrame now b kf).videoByteWindow, now - 2000 ≤ p.1) := by
  obtain ⟨hs1, hs2, hs3⟩ := hs
  obtain ⟨hl1, hl2, hl3⟩ := hle
  have happ1 : (s.videoFrameTimes ++ [now]).Pairwise (fun a b => (a : Int) ≤ b) := by
    rw [List.pairwise_append]
    exact ⟨hs1, List.pairwise_singleton _ _,
      fun a ha b hb => by rw [List.mem_singleton.mp hb]; exact le_trans (hl1 a ha) hT⟩
  have happ2 : (s.videoByteWindow ++ [(now, b)]).Pairwise (fun a b => a.1 ≤ b.1) := by
    rw [List.pairwise_append]
    exact ⟨hs2, List.pairwise_singleton _ _,
      fun a ha c hc => by rw [List.mem_singleton.mp hc]; exact le_trans (hl2 a ha) hT⟩
  refine ⟨⟨?_, ?_, ?_⟩, ⟨?_, ?_, ?_⟩, ?_, ?_⟩
  · exact happ1.sublist (trimFront_sublist id (now - 2000) _)
  · exact happ2.sublist (trimFront_sublist Prod.fst (now - 2000) _)
  · exact hs3
  · intro t ht
    have := (trimFront_sublist id (now - 2000) (s.videoFrameTimes ++ [now])).subset ht
    rcases List.mem_append.mp this with h | h
    · exact le_trans (hl1 t h) hT
    · rw [List.mem_singleton.mp h]
  · intro p hp
    have := (trimFront_sublist Prod.fst (now - 2000) _).subset hp
    rcases List.mem_append.mp this with h | h
    · exact le_trans (hl2 p h) hT
    · rw [List.mem_singleton.mp h]
  · intro p hp
    exact le_trans (hl3 p hp) hT
  · exact trimFront_ge id (now - 2000) _ happ1
  · exact trimFront_ge Prod.fst (now - 2000) _ happ2

theorem recordAudioFrame_step (s : StreamStats) (now : Int) (b : Nat)
    (T : Int) (hs : windowsSorted s) (hle : windowsLE s T) (hT : T ≤ now) :
    windowsSorted (s.recordAudioFrame now b) ∧
      windowsLE (s.recordAudioFrame now b) now ∧
      (∀ p ∈ (s.recordAudioFrame now b).audioByteWindow, now - 2000 ≤ p.1) := by
  obtain ⟨hs1, hs2, hs3⟩ := hs
  obtain ⟨hl1, hl2, hl3⟩ := hle
  have happ : (s.audioByteWindow ++ [(now, b)]).Pairwise (fun a b => a.1 ≤ b.1) := by
    rw [List.pairwise_append]
    exact ⟨hs3, List.pairwise_singleton _ _,
      fun a ha c hc => by rw [List.mem_singleton.mp hc]; exact le_trans (hl3 a ha) hT⟩
  refine ⟨⟨hs1, hs2, ?_⟩, ⟨?_, ?_, ?_⟩, ?_⟩
  · exact happ.sublist (trimFront_sublist Prod.fst (now - 2000) _)
  · intro t ht
    exact le_trans (hl1 t ht) hT
  · intro p hp
    exact le_trans (hl2 p hp) hT
  · intro p hp
    have := (trimFront_sublist Prod.fst (now - 2000) _).subset hp
    rcases List.mem_append.mp this with h | h
    · exact le_trans (hl3 p h) hT
    · rw [List.mem_singleton.mp h]
  · exact trimFront_ge Prod.fst (now - 2000) _ happ

theorem windowsLE_mono (s : StreamStats) (a b : Int) (h : windowsLE s a) (hab : a ≤ b) :
    windowsLE s b :=
  ⟨fun t ht => le_trans (h.1 t ht) hab, fun p hp => le_trans (h.2.1 p hp) hab,
    fun p hp => le_trans (h.2.2 p hp) hab⟩

theorem windowsSorted_fresh : windowsSorted StreamStats.fresh :=
  ⟨List.Pairwise.nil, List.Pairwise.nil, List.Pairwise.nil⟩

theorem windowsLE_fresh (T : Int) : windowsLE StreamStats.fresh T :=
  ⟨fun t ht => absurd ht (List.not_mem_nil t), fun p hp => absurd hp (List.not_mem_nil p),
    fun p hp => absurd hp (List.not_mem_nil p)⟩

theorem runStats_append (s : StreamStats) (xs ys : List StatsCall) :
    runStats s (xs ++ ys) = runStats (runStats s xs) ys := by
  induction xs generalizing s with
  | nil => rfl
  | cons x rest ih =>
    simp only [List.cons_append, runStats]
    exact ih (applyStatsCall s x)

/-- Running a monotone call sequence whose times are bounded by `ct` keeps
the windows sorted and bounded by `ct`. -/
theorem runStats_LE (calls : List StatsCall) (s : StreamStats) (ct : Int)
    (hs : windowsSorted s) (hle : windowsLE s ((calls.map StatsCall.time).headD ct))
    (hchain : List.Chain' (· ≤ ·) (calls.map StatsCall.time ++ [ct])) :
    windowsSorted (runStats s calls) ∧ windowsLE (runStats s calls) ct := by
  induction calls generalizing s with
  | nil => exact ⟨hs, hle⟩
  | cons c rest ih =>
    simp only [List.map_cons, List.headD_cons] at hle
    simp only [List.map_cons, List.cons_append] at hchain
    rw [List.chain'_cons'] at hchain
    obtain ⟨hfirst, hchain⟩ := hchain
    have hstep : windowsSorted (applyStatsCall s c) ∧ windowsLE (applyStatsCall s c) c.time := by
      cases c with
      | video n b k =>
        have h := recordVideoFrame_step s n b k n hs
          (by simpa [StatsCall.time] using hle) (le_refl _)
        exact ⟨h.1, by simpa [StatsCall.time, applyStatsCall] using h.2.1⟩
      | audio n b =>
        have h := recordAudioFrame_step s n b n hs
          (by simpa [StatsCall.time] using hle) (le_refl _)
        exact ⟨h.1, by simpa [StatsCall.time, applyStatsCall] using h.2.1⟩
    have hle' : windowsLE (applyStatsCall s c) ((rest.map StatsCall.time).headD ct) := by
      cases hrm : rest.map StatsCall.time with
      | nil =>
        rw [List.headD_nil]
        exact windowsLE_mono _ _ _ hstep.2 (hfirst ct (by rw [hrm]; simp))
      | cons x l =>
        rw [List.headD_cons]
        exact windowsLE_mono _ _ _ hstep.2 (hfirst x (by rw [hrm]; simp))
    exact ih (applyStatsCall s c) hstep.1 hle' hchain

/-- C8 counterexample: the trim keeps entries exactly at the cutoff (the
source pops only entries strictly older), so after a video frame at t=2000
the entry at t=0 remains though it is not strictly later than now - 2s;
and a record call trims only its own windows, so after an audio frame at
t=0 and a video frame at t=5000 the audio window still holds the entry at
t=0, far older than the cutoff. -/
theorem c8_strict_counterexample :
    (runStats StreamStats.fresh
        [StatsCall.video 0 1 false, StatsCall.video 2000 1 false]).videoFrameTimes =
      [0, 2000] ∧
    ¬(2000 - (2000 : Int) < 0) ∧
    (runStats StreamStats.fresh
        [StatsCall.audio 0 1, StatsCall.video 5000 1 false]).audioByteWindow =
      [(0, 1)] ∧
    ¬(5000 - (2000 : Int) < 0) := by
  refine ⟨by decide, by decide, by decide, by decide⟩

/-- C8 (amended): after each record call of a monotonically timed sequence,
every entry remaining in the windows that call trims (the two video windows
for `record_video_frame`, the audio window for `record_audio_frame`) has a
timestamp at or later than that call's `now` minus the 2-second window
duration.  (Strict lateness fails at the exact cutoff, and windows not
trimmed by a call can retain older entries.) -/
theorem c8_trim_cutoff (pre : List StatsCall) (c : StatsCall)
    (hmono : List.Chain' (· ≤ ·) ((pre ++ [c]).map StatsCall.time)) :
    (∀ now b kf, c = StatsCall.video now b kf →
      (∀ t ∈ (runStats StreamStats.fresh (pre ++ [c])).videoFrameTimes,
          now - 2000 ≤ t) ∧
        (∀ p ∈ (runStats StreamStats.fresh (pre ++ [c])).videoByteWindow,
          now - 2000 ≤ p.1)) ∧
    (∀ now b, c = StatsCall.audio now b →
      ∀ p ∈ (runStats StreamStats.fresh (pre ++ [c])).audioByteWindow,
        now - 2000 ≤ p.1) := by
  rw [List.map_append] at hmono
  have hbase := runStats_LE pre StreamStats.fresh c.time windowsSorted_fresh
    (windowsLE_fresh _) (by simpa using hmono)
  rw [runStats_append]
  constructor
  · rintro now b kf rfl
    have h := recordVideoFrame_step (runStats StreamStats.fresh pre) now b kf now
      hbase.1 (by simpa [StatsCall.time] using hbase.2) (le_refl _)
    exact ⟨by simpa [runStats, applyStatsCall] using h.2.2.1,
      by simpa [runStats, applyStatsCall] using h.2.2.2⟩
  · rintro now b rfl
    have h := recordAudioFrame_step (runStats StreamStats.fresh pre) now b now
      hbase.1 (by simpa [StatsCall.time] using hbase.2) (le_refl _)
    simpa [runStats, applyStatsCall] using h.2.2

/-- C8 witness: after video frames at t=0 and t=2000, the surviving entry
t=2000 is at or past the cutoff 2000 - 2000. -/
theorem c8_trim_cutoff_witness : 2000 - 2000 ≤ (2000 : Int) :=
  ((c8_trim_cutoff [StatsCall.video 0 1 false] (StatsCall.video 2000 1 false)
        (by simp [StatsCall.time, List.chain'_cons])).1 2000 1 false rfl).1 2000 (by decide)

/-- `total_video_bytes` accumulates exactly the per-call byte counts
(modulo the u64 width). -/
theorem runStats_totalVideoBytes (calls : List StatsCall) (s : StreamStats)
    (hlt : s.totalVideoBytes < 2 ^ 64) :
    (runStats s calls).totalVideoBytes =
      (s.totalVideoBytes + (calls.map StatsCall.videoBytes).sum) % 2 ^ 64 := by
  induction calls generalizing s with
  | nil =>
    simp only [runStats, List.map_nil, List.sum_nil, Nat.add_zero]
    exact (Nat.mod_eq_of_lt hlt).symm
  | cons c rest ih =>
    simp only [List.map_cons, List.sum_cons, runStats]
    cases c with
    | video n b k =>
      have happly : (applyStatsCall s (StatsCall.video n b k)).totalVideoBytes
          = (s.totalVideoBytes + b) % 2 ^ 64 := rfl
      rw [ih _ (by rw [happly]; exact Nat.mod_lt _ (by norm_num)), happly,
        Nat.mod_add_mod]
      simp only [StatsCall.videoBytes]
      rw [Nat.add_assoc]
    | audio n b =>
      have happly : (applyStatsCall s (StatsCall.audio n b)).totalVideoBytes
          = s.totalVideoBytes := rfl
      rw [ih _ (by rw [happly]; exact hlt), happly]
      simp only [StatsCall.videoBytes, Nat.zero_add]

/-! ## `src/flv/video.rs` — BitstreamReader (C7)

MSB-first bit reader over a byte sequence.  `read_bits` returns the partial
value on running out of data; the Exp-Golomb zero-counting loop caps at 32
leading zeros (then yields 0).  The loop runs at most 33 times before the
cap triggers, so a fuel of 34 makes the fuel case unreachable. -/

structure BitstreamReader where
  data : List Nat
  byteOffset : Nat
  bitOffset : Nat
deriving DecidableEq, Repr

/-- `BitstreamReader::new`. -/
def BitstreamReader.fresh (data : List Nat) : BitstreamReader :=
  ⟨data, 0, 0⟩

/-- The `for _ in 0..count` loop of `read_bits` (video.rs 399-414).  `acc`
is the value built so far; `value << 1 | bit` is `acc * 2 + bit` since the
bit is 0 or 1. -/
def readBitsAux (r : BitstreamReader) (acc : Nat) : Nat → Nat × BitstreamReader
  | 0 => (acc, r)
  | count + 1 =>
    if r.byteOffset ≥ r.data.length then (acc, r)
    else
      let bit := (r.data.getD r.byteOffset 0 >>> (7 - r.bitOffset)) &&& 1
      let r' : BitstreamReader :=
        if r.bitOffset + 1 = 8 then ⟨r.data, r.byteOffset + 1, 0⟩
        else ⟨r.data, r.byteOffset, r.bitOffset + 1⟩
      readBitsAux r' (acc * 2 + bit) count

/-- `BitstreamReader::read_bits`. -/
def BitstreamReader.readBits (r : BitstreamReader) (count : Nat) : Nat × BitstreamReader :=
  readBitsAux r 0 count

/-- The `while read_bits(1) == 0` loop of `read_exp_golomb` (video.rs
419-424): `some lz` when a one bit ends the run, `none` when the safety cap
(more than 32 zeros) fires.  Fuel 34 is enough: the cap fires by the 33rd
iteration. -/
def egZeroLoop : Nat → BitstreamReader → Nat → Option Nat × BitstreamReader
  | 0, r, _ => (none, r)
  | fuel + 1, r, lz =>
    match r.readBits 1 with
    | (b, r') =>
      if b = 0 then
        if lz + 1 > 32 then (none, r')
        else egZeroLoop fuel r' (lz + 1)
      else (some lz, r')

/-- `BitstreamReader::read_exp_golomb` (video.rs 417-430). -/
def BitstreamReader.readExpGolomb (r : BitstreamReader) : Nat × BitstreamReader :=
  match egZeroLoop 34 r 0 with
  | (none, r') => (0, r')
  | (some 0, r') => (0, r')
  | (some lz, r') =>
    match r'.readBits lz with
    | (suffix, r'') => ((1 <<< lz) - 1 + suffix, r'')

/-- `BitstreamReader::read_signed_exp_golomb` (video.rs 433-444). -/
def BitstreamReader.readSignedExpGolomb (r : BitstreamReader) : Int × BitstreamReader :=
  match r.readExpGolomb with
  | (code, r') =>
    if code = 0 then (0, r')
    else
      let value : Int := ((code + 1) / 2 : Nat)
      (if code % 2 = 0 then -value else value, r')

/-! ## `src/flv/video.rs` — VideoAnalyzer (C3, C10) -/

inductive VideoCodec where
  | h263
  | screen
  | vp6
  | vp6Alpha
  | screenV2
  | avc
  | unknown (id : Nat)
deriving DecidableEq, Repr

/-- `VideoCodec::from_id`. -/
def VideoCodec.fromId (id : Nat) : VideoCodec :=
  if id = 2 then .h263
  else if id = 3 then .screen
  else if id = 4 then .vp6
  else if id = 5 then .vp6Alpha
  else if id = 6 then .screenV2
  else if id = 7 then .avc
  else .unknown id

inductive FrameType where
  | keyframe
  | inter
  | disposableInter
  | generatedKeyframe
  | videoInfo
  | unknown (id : Nat)
deriving DecidableEq, Repr

/-- The frame-type mapping in `process` (video.rs 101-108). -/
def FrameType.fromId (id : Nat) : FrameType :=
  if id = 1 then .keyframe
  else if id = 2 then .inter
  else if id = 3 then .disposableInter
  else if id = 4 then .generatedKeyframe
  else if id = 5 then .videoInfo
  else .unknown id

structure VideoAnalyzer where
  codec : Option VideoCodec
  width : Option Nat
  height : Option Nat
  profile : Option String
  level : Option String
  avcConfigReceived : Bool
  naluLengthSize : Nat
  keyframeCount : Nat
  interFrameCount : Nat
  bFrameCount : Nat
  totalVideoFrames : Nat
  totalVideoBytes : Nat
deriving DecidableEq, Repr

/-- `VideoAnalyzer::new()`. -/
def VideoAnalyzer.fresh : VideoAnalyzer :=
  ⟨none, none, none, none, none, false, 4, 0, 0, 0, 0, 0⟩

/-- `h264_profile_name` (video.rs 331-348). -/
def h264ProfileName (p : Nat) : String :=
  if p = 66 then "Baseline"
  else if p = 77 then "Main"
  else if p = 88 then "Extended"
  else if p = 100 then "High"
  else if p = 110 then "High 10"
  else if p = 122 then "High 4:2:2"
  else if p = 244 then "High 4:4:4 Predictive"
  else if p = 44 then "CAVLC 4:4:4 Intra"
  else if p = 83 then "Scalable Baseline"
  else if p = 86 then "Scalable High"
  else if p = 118 then "Multiview High"
  else if p = 128 then "Stereo High"
  else if p = 138 then "Multiview Depth High"
  else "Profile " ++ toString p

/-- The `format!` of the level string (video.rs 189, 235). -/
def levelString (l : Nat) : String :=
  toString (l / 10) ++ "." ++ toString (l % 10)

/-- `remove_emulation_prevention` (video.rs 350-364): collapse every
`00 00 03` to `00 00`. -/
def removeEmulationPrevention : List Nat → List Nat
  | 0 :: 0 :: 3 :: rest => 0 :: 0 :: removeEmulationPrevention rest
  | x :: rest => x :: removeEmulationPrevention rest
  | [] => []

/-- The body of `skip_scaling_list` (video.rs 366-380), iterating `size`
times over the delta-scale recurrence.  Rust `%` on `i64` is the truncated
remainder, `Int.tmod`. -/
def skipScalingListAux (r : BitstreamReader) (lastScale nextScale : Int) :
    Nat → BitstreamReader
  | 0 => r
  | k + 1 =>
    let (nextScale', r') :=
      if nextScale ≠ 0 then
        match r.readSignedExpGolomb with
        | (delta, r₂) => (Int.tmod (lastScale + delta + 256) 256, r₂)
      else (nextScale, r)
    let lastScale' := if nextScale' = 0 then lastScale else nextScale'
    skipScalingListAux r' lastScale' nextScale' k

/-- `skip_scaling_list` entry: `last_scale = next_scale = 8`. -/
def skipScalingList (r : BitstreamReader) (size : Nat) : BitstreamReader :=
  skipScalingListAux r 8 8 size

/-- The scaling-list presence loop in `parse_sps` (video.rs 250-259):
`i` is the current list index, the second argument counts the remaining
lists. -/
def scalingListLoop (r : BitstreamReader) (i : Nat) : Nat → BitstreamReader
  | 0 => r
  | k + 1 =>
    match r.readBits 1 with
    | (present, r') =>
      let r'' := if present ≠ 0 then skipScalingList r' (if i < 6 then 16 else 64) else r'
      scalingListLoop r'' (i + 1) k

/-- The `for _ in 0..num_ref_frames_in_poc` loop of `parse_sps`
(video.rs 275-277). -/
def skipSegs (r : BitstreamReader) : Nat → BitstreamReader
  | 0 => r
  | k + 1 => skipSegs (r.readSignedExpGolomb).2 k

/-- The reader chain of `VideoAnalyzer::parse_sps` (video.rs 222-324) over
the RBSP with the NAL header byte stripped: returns
`(profile_idc, level_idc, final_width, final_height)`.  Once the RBSP is at
least 2 bytes there are no further early exits — `read_bits` just returns
partial values at end of data — so the whole chain is a pure function of
the RBSP.  `u64` subtraction in the cropping arithmetic wraps, and the
stored dimensions are `as u32` truncations. -/
def spsFields (rbsp : List Nat) : Nat × Nat × Nat × Nat :=
  let r0 := BitstreamReader.fresh (rbsp.drop 1)
  match r0.readBits 8 with
  | (profileIdc, r1) =>
  match r1.readBits 8 with
  | (_constraints, r2) =>
  match r2.readBits 8 with
  | (levelIdc, r3) =>
  let r4 := (r3.readExpGolomb).2
  let r5 :=
    if profileIdc = 100 ∨ profileIdc = 110 ∨ profileIdc = 122 ∨ profileIdc = 244 ∨
        profileIdc = 44 ∨ profileIdc = 83 ∨ profileIdc = 86 ∨ profileIdc = 118 ∨
        profileIdc = 128 ∨ profileIdc = 138 ∨ profileIdc = 139 ∨ profileIdc = 134 ∨
        profileIdc = 135 then
      match r4.readExpGolomb with
      | (chromaFormatIdc, ra) =>
        let rb := if chromaFormatIdc = 3 then (ra.readBits 1).2 else ra
        let rc := (rb.readExpGolomb).2
        let rd := (rc.readExpGolomb).2
        let re := (rd.readBits 1).2
        match re.readBits 1 with
        | (scalingMatrixPresent, rf) =>
          if scalingMatrixPresent ≠ 0 then
            scalingListLoop rf 0 (if chromaFormatIdc ≠ 3 then 8 else 12)
          else rf
    else r4
  let r6 := (r5.readExpGolomb).2
  match r6.readExpGolomb with
  | (pocType, r7) =>
  let r8 :=
    if pocType = 0 then (r7.readExpGolomb).2
    else if pocType = 1 then
      let ra := (r7.readBits 1).2
      let rb := (ra.readSignedExpGolomb).2
      let rc := (rb.readSignedExpGolomb).2
      match rc.readExpGolomb with
      | (numRefFramesInPoc, rd) => skipSegs rd numRefFramesInPoc
    else r7
  let r9 := (r8.readExpGolomb).2
  let r10 := (r9.readBits 1).2
  match r10.readExpGolomb with
  | (pwm, r11) =>
  let picWidthMbs := pwm + 1
  match r11.readExpGolomb with
  | (phm, r12) =>
  let picHeightMapUnits := phm + 1
  match r12.readBits 1 with
  | (frameMbsOnly, r13) =>
  let r14 := if frameMbsOnly = 0 then (r13.readBits 1).2 else r13
  let r15 := (r14.readBits 1).2
  match r15.readBits 1 with
  | (cropping, r16) =>
  let crops :=
    if cropping ≠ 0 then
      match r16.readExpGolomb with
      | (cl, ra) =>
      match ra.readExpGolomb with
      | (cr, rb) =>
      match rb.readExpGolomb with
      | (ct, rc) =>
      match rc.readExpGolomb with
      | (cb, _rd) => (cl, cr, ct, cb)
    else (0, 0, 0, 0)
  match crops with
  | (cropLeft, cropRight, cropTop, cropBottom) =>
  let width := picWidthMbs * 16
  let height := picHeightMapUnits * 16 * (2 - frameMbsOnly)
  let cropUnitX := 2
  let cropUnitY := 2 * (2 - frameMbsOnly)
  let finalWidth := (width + 2 ^ 64 - cropUnitX * (cropLeft + cropRight) % 2 ^ 64) % 2 ^ 64
  let finalHeight := (height + 2 ^ 64 - cropUnitY * (cropTop + cropBottom) % 2 ^ 64) % 2 ^ 64
  (profileIdc, levelIdc, finalWidth % 2 ^ 32, finalHeight % 2 ^ 32)

/-- `VideoAnalyzer::parse_sps` (video.rs 210-328): strip emulation
prevention, then (unless the payload is empty or the RBSP shorter than 2
bytes) set profile, level, width and height from the SPS bitstream.  The
source sets profile/level partway through and width/height at the end with
no early exit in between, so the final state is this record update. -/
def VideoAnalyzer.parseSps (a : VideoAnalyzer) (nalu : List Nat) : VideoAnalyzer :=
  if nalu.length = 0 then a
  else if (removeEmulationPrevention nalu).length < 2 then a
  else
    match spsFields (removeEmulationPrevention nalu) with
      | (profileIdc, levelIdc, w, h) =>
        { a with
          profile := some (h264ProfileName profileIdc)
          level := some (levelString levelIdc)
          width := some w
          height := some h }

/-- The `for _ in 0..num_sps` loop of `parse_avc_sequence_header`
(video.rs 191-205): read a 16-bit SPS length and that many NAL bytes, parse
each; the early short-buffer returns leave `avc_config_received` unset,
while finishing the loop sets it (video.rs 207). -/
def spsLoop (a : VideoAnalyzer) (data : List Nat) (offset : Nat) : Nat → VideoAnalyzer
  | 0 => { a with avcConfigReceived := true }
  | k + 1 =>
    if offset + 2 > data.length then a
    else if offset + 2 + be16At data offset > data.length then a
    else
      spsLoop (a.parseSps ((data.drop (offset + 2)).take (be16At data offset))) data
        (offset + 2 + be16At data offset) k

/-- `VideoAnalyzer::parse_avc_sequence_header` (video.rs 174-208). -/
def VideoAnalyzer.parseAvcSequenceHeader (a : VideoAnalyzer) (data : List Nat) :
    VideoAnalyzer :=
  if data.length < 6 then a
  else
    let profileIdc := data.getD 1 0
    let levelIdc := data.getD 3 0
    let a := { a with
      naluLengthSize := (data.getD 4 0 &&& 0x03) + 1
      profile := some (h264ProfileName profileIdc)
      level := some (levelString levelIdc) }
    spsLoop a data 6 (data.getD 5 0 &&& 0x1F)

/-- The frame-counting arm of the AVC path (video.rs 135-152):
keyframes and generated keyframes to `keyframe_count`; inter and
disposable-inter to `b_frame_count` when the composition time is nonzero,
else `inter_frame_count`; other frame types only bump the total. -/
def countAvcFrame (a : VideoAnalyzer) (ft : FrameType) (compositionTime : Int) :
    VideoAnalyzer :=
  let a1 := { a with totalVideoFrames := (a.totalVideoFrames + 1) % 2 ^ 64 }
  match ft with
  | .keyframe | .generatedKeyframe =>
    { a1 with keyframeCount := (a1.keyframeCount + 1) % 2 ^ 64 }
  | .inter | .disposableInter =>
    if compositionTime ≠ 0 then { a1 with bFrameCount := (a1.bFrameCount + 1) % 2 ^ 64 }
    else { a1 with interFrameCount := (a1.interFrameCount + 1) % 2 ^ 64 }
  | _ => a1

/-- The non-AVC counting arm (video.rs 159-171). -/
def countNonAvcFrame (a : VideoAnalyzer) (ft : FrameType) : VideoAnalyzer :=
  let a1 := { a with totalVideoFrames := (a.totalVideoFrames + 1) % 2 ^ 64 }
  match ft with
  | .keyframe | .generatedKeyframe =>
    { a1 with keyframeCount := (a1.keyframeCount + 1) % 2 ^ 64 }
  | .inter | .disposableInter =>
    { a1 with interFrameCount := (a1.interFrameCount + 1) % 2 ^ 64 }
  | _ => a1

/-- `VideoAnalyzer::process` (video.rs 87-172).  The 24-bit composition
time is sign-extended to a signed value; counters are u64. -/
def VideoAnalyzer.process (a : VideoAnalyzer) (data : List Nat) : VideoAnalyzer :=
  if data.length = 0 then a
  else
    let a1 := { a with totalVideoBytes := (a.totalVideoBytes + data.length) % 2 ^ 64 }
    let a2 := { a1 with codec := some (VideoCodec.fromId (data.getD 0 0 &&& 0x0F)) }
    let frameType := FrameType.fromId ((data.getD 0 0 >>> 4) &&& 0x0F)
    if frameType = FrameType.videoInfo then a2
    else if VideoCodec.fromId (data.getD 0 0 &&& 0x0F) = VideoCodec.avc ∧ data.length ≥ 5 then
      let ctRaw := ((data.getD 2 0) <<< 16) ||| ((data.getD 3 0) <<< 8) ||| data.getD 4 0
      let compositionTime : Int :=
        if ctRaw &&& 0x800000 ≠ 0 then (ctRaw : Int) - 0x1000000 else (ctRaw : Int)
      if data.getD 1 0 = 0 then
        if data.length > 5 then a2.parseAvcSequenceHeader (data.drop 5) else a2
      else if data.getD 1 0 = 1 then countAvcFrame a2 frameType compositionTime
      else a2
    else countNonAvcFrame a2 frameType

/-- C10 counterexample: the payload [0x57] is nonempty, has AVC codec
nibble 7 and length below 5, yet its frame-type nibble 5 (video info) makes
`process` return before any counting: `total_video_frames` stays 0, so the
claim that every such payload increments it fails. -/
theorem c10_videoinfo_counterexample :
    (VideoAnalyzer.fresh.process [0x57]).totalVideoFrames = 0 ∧
      VideoAnalyzer.fresh.process [0x57] ≠
        { VideoAnalyzer.fresh with
            totalVideoBytes := 1
            codec := some VideoCodec.avc
            totalVideoFrames := 1 } := by
  refine ⟨by decide, by decide⟩

/-- Stated from the claim (C10): the non-AVC counting path as a function of
only the payload length and its first byte — bump the byte total, record
the codec, count the frame, and classify by the frame-type nibble alone
(keyframe or generated keyframe to `keyframe_count`, inter or
disposable-inter to `inter_frame_count`, never `b_frame_count`). -/
def c10NonAvcPath (a : VideoAnalyzer) (len firstByte : Nat) : VideoAnalyzer :=
  let a := { a with totalVideoBytes := (a.totalVideoBytes + len) % 2 ^ 64 }
  let a := { a with codec := some (VideoCodec.fromId (firstByte &&& 0x0F)) }
  let ft := (firstByte >>> 4) &&& 0x0F
  let a := { a with totalVideoFrames := (a.totalVideoFrames + 1) % 2 ^ 64 }
  if ft = 1 ∨ ft = 4 then { a with keyframeCount := (a.keyframeCount + 1) % 2 ^ 64 }
  else if ft = 2 ∨ ft = 3 then
    { a with interFrameCount := (a.interFrameCount + 1) % 2 ^ 64 }
  else a

/-- C10 (amended): for every nonempty AVC-codec payload shorter than 5
bytes whose frame-type nibble is not 5 (video info), `process` takes the
non-AVC counting branch: the result depends only on the payload length and
first byte (no `avc_packet_type` or composition time is read), the frame is
counted in `total_video_frames`, keyframes go to `keyframe_count`,
inter and disposable-inter frames to `inter_frame_count`, and
`b_frame_count` is never touched. -/
theorem c10_short_avc_counts (a : VideoAnalyzer) (data : List Nat)
    (hne : data.length ≠ 0) (hlt : data.length < 5)
    (hcodec : data.getD 0 0 &&& 0x0F = 7)
    (hft : (data.getD 0 0 >>> 4) &&& 0x0F ≠ 5) :
    a.process data = c10NonAvcPath a data.length (data.getD 0 0) := by
  unfold VideoAnalyzer.process c10NonAvcPath
  rw [if_neg hne]
  simp only [hcodec]
  have hnotvi : FrameType.fromId ((data.getD 0 0 >>> 4) &&& 0x0F) ≠ FrameType.videoInfo := by
    unfold FrameType.fromId
    split_ifs <;> simp_all
  rw [if_neg hnotvi, if_neg (by intro hc; exact absurd hc.2 (by omega))]
  unfold FrameType.fromId
  split_ifs with h1 h2 h3 h4 h5 <;> simp_all [countNonAvcFrame]

/-- C10 witness: a 1-byte keyframe AVC payload takes the counting path. -/
theorem c10_short_avc_counts_witness :
    VideoAnalyzer.fresh.process [0x17] = c10NonAvcPath VideoAnalyzer.fresh 1 0x17 :=
  c10_short_avc_counts VideoAnalyzer.fresh [0x17] (by decide) (by decide) (by decide)
    (by decide)

/-- SPS parsing rewrites only codec metadata; the five counters are
untouched. -/
theorem parseSps_counters (a : VideoAnalyzer) (nalu : List Nat) :
    (a.parseSps nalu).keyframeCount = a.keyframeCount ∧
      (a.parseSps nalu).interFrameCount = a.interFrameCount ∧
      (a.parseSps nalu).bFrameCount = a.bFrameCount ∧
      (a.parseSps nalu).totalVideoFrames = a.totalVideoFrames ∧
      (a.parseSps nalu).totalVideoBytes = a.totalVideoBytes := by
  unfold VideoAnalyzer.parseSps
  split
  · exact ⟨rfl, rfl, rfl, rfl, rfl⟩
  · split
    · exact ⟨rfl, rfl, rfl, rfl, rfl⟩
    · split
      exact ⟨rfl, rfl, rfl, rfl, rfl⟩

theorem spsLoop_counters (n : Nat) (a : VideoAnalyzer) (data : List Nat) (offset : Nat) :
    (spsLoop a data offset n).keyframeCount = a.keyframeCount ∧
      (spsLoop a data offset n).interFrameCount = a.interFrameCount ∧
      (spsLoop a data offset n).bFrameCount = a.bFrameCount ∧
      (spsLoop a data offset n).totalVideoFrames = a.totalVideoFrames ∧
      (spsLoop a data offset n).totalVideoBytes = a.totalVideoBytes := by
  induction n generalizing a offset with
  | zero => simp [spsLoop]
  | succ k ih =>
    rw [spsLoop]
    split
    · simp
    · split
      · simp
      · have h1 := ih (a.parseSps ((data.drop (offset + 2)).take (be16At data offset)))
          (offset + 2 + be16At data offset)
        have h2 := parseSps_counters a ((data.drop (offset + 2)).take (be16At data offset))
        omega

theorem parseAvcSequenceHeader_counters (a : VideoAnalyzer) (data : List Nat) :
    (a.parseAvcSequenceHeader data).keyframeCount = a.keyframeCount ∧
      (a.parseAvcSequenceHeader data).interFrameCount = a.interFrameCount ∧
      (a.parseAvcSequenceHeader data).bFrameCount = a.bFrameCount ∧
      (a.parseAvcSequenceHeader data).totalVideoFrames = a.totalVideoFrames ∧
      (a.parseAvcSequenceHeader data).totalVideoBytes = a.totalVideoBytes := by
  unfold VideoAnalyzer.parseAvcSequenceHeader
  split
  · simp
  · have h := spsLoop_counters (data.getD 5 0 &&& 0x1F)
      { a with
        naluLengthSize := (data.getD 4 0 &&& 0x03) + 1
        profile := some (h264ProfileName (data.getD 1 0))
        level := some (levelString (data.getD 3 0)) } data 6
    simpa using h

/-- The frame-type nibble names one of the five known frame kinds. -/
def knownFrameNibble (d : List Nat) : Prop :=
  (d.getD 0 0 >>> 4) &&& 0x0F = 1 ∨ (d.getD 0 0 >>> 4) &&& 0x0F = 2 ∨
    (d.getD 0 0 >>> 4) &&& 0x0F = 3 ∨ (d.getD 0 0 >>> 4) &&& 0x0F = 4 ∨
    (d.getD 0 0 >>> 4) &&& 0x0F = 5

instance (d : List Nat) : Decidable (knownFrameNibble d) := by
  unfold knownFrameNibble
  infer_instance

/-- Run a sequence of `process` calls. -/
def runVideo (a : VideoAnalyzer) : List (List Nat) → VideoAnalyzer
  | [] => a
  | d :: rest => runVideo (a.process d) rest

theorem countAvcFrame_step (a : VideoAnalyzer) (ft : FrameType) (ct : Int)
    (hwrap : a.totalVideoFrames + 1 < 2 ^ 64)
    (hle : a.keyframeCount + a.interFrameCount + a.bFrameCount ≤ a.totalVideoFrames) :
    ((countAvcFrame a ft ct).keyframeCount + (countAvcFrame a ft ct).interFrameCount +
        (countAvcFrame a ft ct).bFrameCount ≤ (countAvcFrame a ft ct).totalVideoFrames) ∧
      (countAvcFrame a ft ct).totalVideoFrames = a.totalVideoFrames + 1 ∧
      ((ft ≠ FrameType.videoInfo ∧ ∀ i, ft ≠ FrameType.unknown i) →
        a.keyframeCount + a.interFrameCount + a.bFrameCount = a.totalVideoFrames →
        (countAvcFrame a ft ct).keyframeCount + (countAvcFrame a ft ct).interFrameCount +
          (countAvcFrame a ft ct).bFrameCount = (countAvcFrame a ft ct).totalVideoFrames) := by
  have h1 : (a.totalVideoFrames + 1) % 18446744073709551616 = a.totalVideoFrames + 1 :=
    Nat.mod_eq_of_lt (by omega)
  have h2 : (a.keyframeCount + 1) % 18446744073709551616 = a.keyframeCount + 1 :=
    Nat.mod_eq_of_lt (by omega)
  have h3 : (a.interFrameCount + 1) % 18446744073709551616 = a.interFrameCount + 1 :=
    Nat.mod_eq_of_lt (by omega)
  have h4 : (a.bFrameCount + 1) % 18446744073709551616 = a.bFrameCount + 1 :=
    Nat.mod_eq_of_lt (by omega)
  cases ft with
  | keyframe =>
    exact ⟨by simp [countAvcFrame, h1, h2]; omega, by simp [countAvcFrame, h1],
      fun _ htot => by simp [countAvcFrame, h1, h2]; omega⟩
  | generatedKeyframe =>
    exact ⟨by simp [countAvcFrame, h1, h2]; omega, by simp [countAvcFrame, h1],
      fun _ htot => by simp [countAvcFrame, h1, h2]; omega⟩
  | inter =>
    by_cases hct : ct ≠ 0
    · exact ⟨by simp [countAvcFrame, h1, h4, hct]; omega, by simp [countAvcFrame, h1, hct],
        fun _ htot => by simp [countAvcFrame, h1, h4, hct]; omega⟩
    · exact ⟨by simp [countAvcFrame, h1, h3, hct]; omega, by simp [countAvcFrame, h1, hct],
        fun _ htot => by simp [countAvcFrame, h1, h3, hct]; omega⟩
  | disposableInter =>
    by_cases hct : ct ≠ 0
    · exact ⟨by simp [countAvcFrame, h1, h4, hct]; omega, by simp [countAvcFrame, h1, hct],
        fun _ htot => by simp [countAvcFrame, h1, h4, hct]; omega⟩
    · exact ⟨by simp [countAvcFrame, h1, h3, hct]; omega, by simp [countAvcFrame, h1, hct],
        fun _ htot => by simp [countAvcFrame, h1, h3, hct]; omega⟩
  | videoInfo =>
    exact ⟨by simp [countAvcFrame, h1]; omega, by simp [countAvcFrame, h1],
      fun hk _ => absurd rfl hk.1⟩
  | unknown i =>
    exact ⟨by simp [countAvcFrame, h1]; omega, by simp [countAvcFrame, h1],
      fun hk _ => absurd rfl (hk.2 i)⟩

theorem countNonAvcFrame_step (a : VideoAnalyzer) (ft : FrameType)
    (hwrap : a.totalVideoFrames + 1 < 2 ^ 64)
    (hle : a.keyframeCount + a.interFrameCount + a.bFrameCount ≤ a.totalVideoFrames) :
    ((countNonAvcFrame a ft).keyframeCount + (countNonAvcFrame a ft).interFrameCount +
        (countNonAvcFrame a ft).bFrameCount ≤ (countNonAvcFrame a ft).totalVideoFrames) ∧
      (countNonAvcFrame a ft).totalVideoFrames = a.totalVideoFrames + 1 ∧
      ((ft ≠ FrameType.videoInfo ∧ ∀ i, ft ≠ FrameType.unknown i) →
        a.keyframeCount + a.interFrameCount + a.bFrameCount = a.totalVideoFrames →
        (countNonAvcFrame a ft).keyframeCount + (countNonAvcFrame a ft).interFrameCount +
          (countNonAvcFrame a ft).bFrameCount = (countNonAvcFrame a ft).totalVideoFrames) := by
  have h1 : (a.totalVideoFrames + 1) % 18446744073709551616 = a.totalVideoFrames + 1 :=
    Nat.mod_eq_of_lt (by omega)
  have h2 : (a.keyframeCount + 1) % 18446744073709551616 = a.keyframeCount + 1 :=
    Nat.mod_eq_of_lt (by omega)
  have h3 : (a.interFrameCount + 1) % 18446744073709551616 = a.interFrameCount + 1 :=
    Nat.mod_eq_of_lt (by omega)
  cases ft with
  | keyframe =>
    exact ⟨by simp [countNonAvcFrame, h1, h2]; omega, by simp [countNonAvcFrame, h1],
      fun _ htot => by simp [countNonAvcFrame, h1, h2]; omega⟩
  | generatedKeyframe =>
    exact ⟨by simp [countNonAvcFrame, h1, h2]; omega, by simp [countNonAvcFrame, h1],
      fun _ htot => by simp [countNonAvcFrame, h1, h2]; omega⟩
  | inter =>
    exact ⟨by simp [countNonAvcFrame, h1, h3]; omega, by simp [countNonAvcFrame, h1],
      fun _ htot => by simp [countNonAvcFrame, h1, h3]; omega⟩
  | disposableInter =>
    exact ⟨by simp [countNonAvcFrame, h1, h3]; omega, by simp [countNonAvcFrame, h1],
      fun _ htot => by simp [countNonAvcFrame, h1, h3]; omega⟩
  | videoInfo =>
    exact ⟨by simp [countNonAvcFrame, h1]; omega, by simp [countNonAvcFrame, h1],
      fun hk _ => absurd rfl hk.1⟩
  | unknown i =>
    exact ⟨by simp [countNonAvcFrame, h1]; omega, by simp [countNonAvcFrame, h1],
      fun hk _ => absurd rfl (hk.2 i)⟩

theorem fromId_not_unknown (n : Nat)
    (h : n = 1 ∨ n = 2 ∨ n = 3 ∨ n = 4 ∨ n = 5) :
    ∀ i, FrameType.fromId n ≠ FrameType.unknown i := by
  rcases h with rfl | rfl | rfl | rfl | rfl <;> intro i <;> simp [FrameType.fromId]

theorem process_counts_step (a : VideoAnalyzer) (d : List Nat)
    (hwrap : a.totalVideoFrames + 1 < 2 ^ 64)
    (hle : a.keyframeCount + a.interFrameCount + a.bFrameCount ≤ a.totalVideoFrames) :
    ((a.process d).keyframeCount + (a.process d).interFrameCount + (a.process d).bFrameCount
        ≤ (a.process d).totalVideoFrames) ∧
      (a.process d).totalVideoFrames ≤ a.totalVideoFrames + 1 ∧
      (knownFrameNibble d →
        a.keyframeCount + a.interFrameCount + a.bFrameCount = a.totalVideoFrames →
        (a.process d).keyframeCount + (a.process d).interFrameCount + (a.process d).bFrameCount
          = (a.process d).totalVideoFrames) := by
  unfold VideoAnalyzer.process
  split
  · exact ⟨hle, by first | (dsimp only; omega) | omega, fun _ h => h⟩
  · dsimp only
    split
    · exact ⟨hle, by first | (dsimp only; omega) | omega, fun _ h => h⟩
    · split
      · split
        · split
          · rcases parseAvcSequenceHeader_counters
                { a with
                    totalVideoBytes := (a.totalVideoBytes + d.length) % 2 ^ 64
                    codec := some (VideoCodec.fromId (d.getD 0 0 &&& 0x0F)) }
                (d.drop 5) with ⟨e1, e2, e3, e4, e5⟩
            rw [e1, e2, e3, e4]
            exact ⟨hle, by first | (dsimp only; omega) | omega, fun _ h => h⟩
          · exact ⟨hle, by first | (dsimp only; omega) | omega, fun _ h => h⟩
        · split
          · rename_i hnotvi _ _ _
            have hstep := countAvcFrame_step
              { a with
                  totalVideoBytes := (a.totalVideoBytes + d.length) % 2 ^ 64
                  codec := some (VideoCodec.fromId (d.getD 0 0 &&& 0x0F)) }
              (FrameType.fromId ((d.getD 0 0 >>> 4) &&& 0x0F))
              (if (((d.getD 2 0) <<< 16) ||| ((d.getD 3 0) <<< 8) ||| d.getD 4 0) &&& 0x800000 ≠ 0
                then ((((d.getD 2 0) <<< 16) ||| ((d.getD 3 0) <<< 8) ||| d.getD 4 0 : Nat) : Int)
                  - 0x1000000
                else ((((d.getD 2 0) <<< 16) ||| ((d.getD 3 0) <<< 8) ||| d.getD 4 0 : Nat) : Int))
              hwrap hle
            refine ⟨hstep.1, le_of_eq hstep.2.1, fun hkn htot => ?_⟩
            exact hstep.2.2 ⟨hnotvi, fromId_not_unknown _ hkn⟩ htot
          · exact ⟨hle, by first | (dsimp only; omega) | omega, fun _ h => h⟩
      · rename_i hnotvi _
        have hstep := countNonAvcFrame_step
          { a with
              totalVideoBytes := (a.totalVideoBytes + d.length) % 2 ^ 64
              codec := some (VideoCodec.fromId (d.getD 0 0 &&& 0x0F)) }
          (FrameType.fromId ((d.getD 0 0 >>> 4) &&& 0x0F)) hwrap hle
        refine ⟨hstep.1, le_of_eq hstep.2.1, fun hkn htot => ?_⟩
        exact hstep.2.2 ⟨hnotvi, fromId_not_unknown _ hkn⟩ htot

theorem runVideo_counts (payloads : List (List Nat)) (a : VideoAnalyzer)
    (hwrap : a.totalVideoFrames + payloads.length < 2 ^ 64)
    (hle : a.keyframeCount + a.interFrameCount + a.bFrameCount ≤ a.totalVideoFrames) :
    ((runVideo a payloads).keyframeCount + (runVideo a payloads).interFrameCount +
        (runVideo a payloads).bFrameCount ≤ (runVideo a payloads).totalVideoFrames) ∧
      (runVideo a payloads).totalVideoFrames ≤ a.totalVideoFrames + payloads.length ∧
      ((∀ d ∈ payloads, knownFrameNibble d) →
        a.keyframeCount + a.interFrameCount + a.bFrameCount = a.totalVideoFrames →
        (runVideo a payloads).keyframeCount + (runVideo a payloads).interFrameCount +
          (runVideo a payloads).bFrameCount = (runVideo a payloads).totalVideoFrames) := by
  induction payloads generalizing a with
  | nil => exact ⟨hle, by simp [runVideo], fun _ h => h⟩
  | cons d rest ih =>
    simp only [List.length_cons] at hwrap
    have hstep := process_counts_step a d (by omega) hle
    have hih := ih (a.process d) (by omega) hstep.1
    refine ⟨hih.1, ?_, fun hkn heq => ?_⟩
    · calc (runVideo (a.process d) rest).totalVideoFrames
          ≤ (a.process d).totalVideoFrames + rest.length := hih.2.1
        _ ≤ a.totalVideoFrames + (d :: rest).length := by
            simp only [List.length_cons]
            have := hstep.2.1
            omega
    · exact hih.2.2 (fun x hx => hkn x (List.mem_cons_of_mem d hx))
        (hstep.2.2 (hkn d (List.mem_cons_self d rest)) heq)

/-- C3 counterexample: the AVC payload [0x67,0x01,0,0,0] (frame-type nibble
6, unknown) is counted in `total_video_frames` but lands in no class
bucket, so the bucket sum falls short of the total (and there is no
non-AVC-path frame to make up the difference). -/
theorem c3_unknown_frame_counterexample :
    (runVideo VideoAnalyzer.fresh [[0x67, 0x01, 0, 0, 0]]).totalVideoFrames = 1 ∧
      (runVideo VideoAnalyzer.fresh [[0x67, 0x01, 0, 0, 0]]).keyframeCount = 0 ∧
      (runVideo VideoAnalyzer.fresh [[0x67, 0x01, 0, 0, 0]]).interFrameCount = 0 ∧
      (runVideo VideoAnalyzer.fresh [[0x67, 0x01, 0, 0, 0]]).bFrameCount = 0 := by
  refine ⟨by decide, by decide, by decide, by decide⟩

/-- C3 (amended): `total_video_bytes` equals the sum of the byte counts
passed to `record_video_frame` (whenever that sum fits in u64); and for the
video analyzer the three class counters never exceed `total_video_frames`,
with equality whenever every processed payload carries a known frame-type
nibble (1-5) — frames with an unknown nibble are counted in the total but
in no bucket. -/
theorem c3_counters :
    (∀ calls : List StatsCall, (calls.map StatsCall.videoBytes).sum < 2 ^ 64 →
      (runStats StreamStats.fresh calls).totalVideoBytes =
        (calls.map StatsCall.videoBytes).sum) ∧
    (∀ payloads : List (List Nat), payloads.length < 2 ^ 64 →
      ((runVideo VideoAnalyzer.fresh payloads).keyframeCount +
          (runVideo VideoAnalyzer.fresh payloads).interFrameCount +
          (runVideo VideoAnalyzer.fresh payloads).bFrameCount ≤
        (runVideo VideoAnalyzer.fresh payloads).totalVideoFrames) ∧
      ((∀ d ∈ payloads, knownFrameNibble d) →
        (runVideo VideoAnalyzer.fresh payloads).keyframeCount +
            (runVideo VideoAnalyzer.fresh payloads).interFrameCount +
            (runVideo VideoAnalyzer.fresh payloads).bFrameCount =
          (runVideo VideoAnalyzer.fresh payloads).totalVideoFrames)) := by
  constructor
  · intro calls hsum
    rw [runStats_totalVideoBytes calls StreamStats.fresh (by decide)]
    show (0 + (calls.map StatsCall.videoBytes).sum) % 2 ^ 64 = _
    rw [Nat.zero_add]
    exact Nat.mod_eq_of_lt hsum
  · intro payloads hlen
    have h := runVideo_counts payloads VideoAnalyzer.fresh
      (by show 0 + payloads.length < 2 ^ 64; omega) (by show 0 + 0 + 0 ≤ 0; omega)
    exact ⟨h.1, fun hkn => h.2.2 hkn rfl⟩

/-- C3 witness: a keyframe and an inter frame on the short-AVC path give
bucket sum 2 = total 2. -/
theorem c3_counters_witness :
    (runVideo VideoAnalyzer.fresh [[0x17], [0x27]]).keyframeCount +
        (runVideo VideoAnalyzer.fresh [[0x17], [0x27]]).interFrameCount +
        (runVideo VideoAnalyzer.fresh [[0x17], [0x27]]).bFrameCount =
      (runVideo VideoAnalyzer.fresh [[0x17], [0x27]]).totalVideoFrames :=
  (c3_counters.2 [[0x17], [0x27]] (by decide)).2 (by decide)

/-! ## C7 — Exp-Golomb round trip

The encoding side below is stated from the claim: the Exp-Golomb code of
`k` is `floor(log2(k+1))` zero bits followed by the binary digits of
`k + 1` (MSB first), packed MSB-first into bytes with zero padding.  Bits
are `Nat` values 0/1. -/

/-- MSB-first binary digits of `n`, with explicit fuel (the division chain
reaches 0 within `n` steps). -/
def natBitsF : Nat → Nat → List Nat
  | 0, _ => []
  | fuel + 1, n => if n = 0 then [] else natBitsF fuel (n / 2) ++ [n % 2]

/-- MSB-first binary digits of `n` (empty for 0). -/
def natBits (n : Nat) : List Nat :=
  natBitsF n n

/-- The Exp-Golomb code of `k`: leading zeros, then the digits of `k+1`. -/
def expGolombBits (k : Nat) : List Nat :=
  List.replicate ((natBits (k + 1)).length - 1) 0 ++ natBits (k + 1)

/-- Pack up to 8 bits (MSB first, zero-padded on the right) into a byte. -/
def bitsOctet (l : List Nat) : Nat :=
  (l ++ List.replicate (8 - l.length) 0).foldl (fun a b => 2 * a + b) 0

/-- Pack a bit list into bytes, with fuel (each step consumes 8 bits). -/
def bitsToBytesF : Nat → List Nat → List Nat
  | 0, _ => []
  | _ + 1, [] => []
  | fuel + 1, bits => bitsOctet (bits.take 8) :: bitsToBytesF fuel (bits.drop 8)

/-- Pack a bit list into bytes, MSB first, zero padding at the end. -/
def bitsToBytes (bits : List Nat) : List Nat :=
  bitsToBytesF bits.length bits

/-- The value of an MSB-first bit list. -/
def valBits (l : List Nat) : Nat :=
  l.foldl (fun a b => 2 * a + b) 0

/-- Bit `p` (MSB first) of a byte sequence, as the source reads it. -/
def bitOf (bs : List Nat) (p : Nat) : Nat :=
  (bs.getD (p / 8) 0 >>> (7 - p % 8)) &&& 1

/-- The value accumulated by `read_bits` from bits `p, …, p+c-1`. -/
def bitsVal (bs : List Nat) (p : Nat) : Nat → Nat
  | 0 => 0
  | c + 1 => 2 * bitsVal bs p c + bitOf bs (p + c)

theorem natBitsF_congr (n : Nat) : ∀ f1 f2 : Nat, n ≤ f1 → n ≤ f2 →
    natBitsF f1 n = natBitsF f2 n := by
  induction n using Nat.strong_induction_on with
  | _ n ih =>
    intro f1 f2 h1 h2
    match f1, f2 with
    | 0, 0 => rfl
    | 0, f2 + 1 =>
      interval_cases n
      simp [natBitsF]
    | f1 + 1, 0 =>
      interval_cases n
      simp [natBitsF]
    | f1 + 1, f2 + 1 =>
      by_cases hn : n = 0
      · simp [natBitsF, hn]
      · simp only [natBitsF, hn, if_false]
        rw [ih (n / 2) (by omega) f1 f2 (by omega) (by omega)]

theorem natBits_unfold (n : Nat) (h : n ≠ 0) :
    natBits n = natBits (n / 2) ++ [n % 2] := by
  rw [natBits, natBits]
  match hn : n, h with
  | m + 1, _ =>
    simp only [natBitsF, Nat.succ_ne_zero, if_false]
    rw [natBitsF_congr ((m + 1) / 2) m ((m + 1) / 2) (by omega) (by omega)]

theorem valBits_append (l : List Nat) (b : Nat) :
    valBits (l ++ [b]) = 2 * valBits l + b := by
  simp [valBits, List.foldl_append]

theorem natBits_val (n : Nat) : valBits (natBits n) = n := by
  induction n using Nat.strong_induction_on with
  | _ n ih =>
    by_cases hn : n = 0
    · subst hn; rfl
    · rw [natBits_unfold n hn, valBits_append, ih (n / 2) (by omega)]
      omega

theorem natBits_le_one (n : Nat) : ∀ x ∈ natBits n, x ≤ 1 := by
  induction n using Nat.strong_induction_on with
  | _ n ih =>
    by_cases hn : n = 0
    · subst hn; intro x hx; simp [natBits, natBitsF] at hx
    · rw [natBits_unfold n hn]
      intro x hx
      rcases List.mem_append.mp hx with h | h
      · exact ih (n / 2) (by omega) x h
      · rw [List.mem_singleton.mp h]; omega

theorem natBits_head (n : Nat) (h : n ≠ 0) :
    ∃ t, natBits n = 1 :: t := by
  induction n using Nat.strong_induction_on with
  | _ n ih =>
    rw [natBits_unfold n h]
    by_cases h2 : n / 2 = 0
    · refine ⟨[], ?_⟩
      rw [h2]
      have : n = 1 := by omega
      subst this
      rfl
    · obtain ⟨t, ht⟩ := ih (n / 2) (by omega) h2
      exact ⟨t ++ [n % 2], by rw [ht]; rfl⟩

theorem natBits_length_le (n : Nat) : ∀ m, n < 2 ^ m → (natBits n).length ≤ m := by
  induction n using Nat.strong_induction_on with
  | _ n ih =>
    intro m h
    by_cases hn : n = 0
    · subst hn; simp [natBits, natBitsF]
    · rw [natBits_unfold n hn]
      have hm : m ≠ 0 := by
        intro h0
        subst h0
        simp only [pow_zero] at h
        omega
      have hpow : 2 ^ m = 2 * 2 ^ (m - 1) := by
        conv_lhs => rw [show m = (m - 1) + 1 by omega]
        rw [pow_succ]
        ring
      have hrec := ih (n / 2) (by omega) (m - 1) (by omega)
      simp only [List.length_append, List.length_singleton]
      omega

theorem bitsToBytesF_congr : ∀ (L : Nat) (bits : List Nat), bits.length ≤ L →
    ∀ f1 f2, bits.length ≤ f1 → bits.length ≤ f2 →
    bitsToBytesF f1 bits = bitsToBytesF f2 bits := by
  intro L
  induction L with
  | zero =>
    intro bits h f1 f2 _ _
    have : bits = [] := List.eq_nil_of_length_eq_zero (by omega)
    subst this
    cases f1 <;> cases f2 <;> rfl
  | succ L ihL =>
    intro bits h f1 f2 h1 h2
    match bits with
    | [] => cases f1 <;> cases f2 <;> rfl
    | b :: rest =>
      match f1, f2 with
      | g1 + 1, g2 + 1 =>
        show bitsOctet _ :: bitsToBytesF g1 ((b :: rest).drop 8) =
          bitsOctet _ :: bitsToBytesF g2 ((b :: rest).drop 8)
        have hd : ((b :: rest).drop 8).length ≤ L := by
          simp only [List.length_drop, List.length_cons]
          simp only [List.length_cons] at h
          omega
        rw [ihL ((b :: rest).drop 8) hd g1 g2
          (by simp only [List.length_drop, List.length_cons]
              simp only [List.length_cons] at h1
              omega)
          (by simp only [List.length_drop, List.length_cons]
              simp only [List.length_cons] at h2
              omega)]

theorem bitsToBytes_unfold (bits : List Nat) (h : bits ≠ []) :
    bitsToBytes bits = bitsOctet (bits.take 8) :: bitsToBytes (bits.drop 8) := by
  match bits with
  | b :: rest =>
    show bitsToBytesF (b :: rest).length (b :: rest) = _
    have : (b :: rest).length = rest.length + 1 := rfl
    rw [this]
    show bitsOctet _ :: bitsToBytesF rest.length ((b :: rest).drop 8) = _
    rw [bitsToBytesF_congr ((b :: rest).drop 8).length ((b :: rest).drop 8) (le_refl _)
      rest.length ((b :: rest).drop 8).length
      (by simp only [List.length_drop, List.length_cons]; omega) (le_refl _)]
    rfl

theorem bitsToBytes_length : ∀ (L : Nat) (bits : List Nat), bits.length ≤ L →
    (bitsToBytes bits).length = (bits.length + 7) / 8 := by
  intro L
  induction L with
  | zero =>
    intro bits h
    have : bits = [] := List.eq_nil_of_length_eq_zero (by omega)
    subst this
    rfl
  | succ L ihL =>
    intro bits h
    rcases List.eq_nil_or_concat bits with rfl | ⟨l, x, hbx⟩
    · rfl
    · have hne : bits ≠ [] := by
        rw [hbx]
        simp
      rw [bitsToBytes_unfold bits hne]
      have hd : (bits.drop 8).length ≤ L := by
        simp only [List.length_drop]
        have : bits.length ≠ 0 := by
          intro h0
          exact hne (List.eq_nil_of_length_eq_zero h0)
        omega
      simp only [List.length_cons, ihL (bits.drop 8) hd, List.length_drop]
      have : bits.length ≠ 0 := by
        intro h0
        exact hne (List.eq_nil_of_length_eq_zero h0)
      omega

theorem bitsOctet_bit (l : List Nat) (hlen : l.length ≤ 8) (hl : ∀ x ∈ l, x ≤ 1)
    (i : Nat) (hi : i < 8) :
    (bitsOctet l >>> (7 - i)) &&& 1 = (l ++ List.replicate (8 - l.length) 0).getD i 0 := by
  have hLlen : (l ++ List.replicate (8 - l.length) 0).length = 8 := by
    simp only [List.length_append, List.length_replicate]
    omega
  have hLle : ∀ x ∈ l ++ List.replicate (8 - l.length) 0, x ≤ 1 := by
    intro x hx
    rcases List.mem_append.mp hx with h | h
    · exact hl x h
    · rw [List.eq_of_mem_replicate h]
      omega
  have hoct : bitsOctet l = valBits (l ++ List.replicate (8 - l.length) 0) := rfl
  rw [hoct]
  generalize hL : l ++ List.replicate (8 - l.length) 0 = L at *
  clear hoct hL hl hlen
  rcases L with _ | ⟨b0, L⟩; · simp at hLlen
  rcases L with _ | ⟨b1, L⟩; · simp at hLlen
  rcases L with _ | ⟨b2, L⟩; · simp at hLlen
  rcases L with _ | ⟨b3, L⟩; · simp at hLlen
  rcases L with _ | ⟨b4, L⟩; · simp at hLlen
  rcases L with _ | ⟨b5, L⟩; · simp at hLlen
  rcases L with _ | ⟨b6, L⟩; · simp at hLlen
  rcases L with _ | ⟨b7, L⟩; · simp at hLlen
  rcases L with _ | ⟨b8, L⟩
  swap
  · simp at hLlen
  have e0 : b0 ≤ 1 := hLle b0 (by simp)
  have e1 : b1 ≤ 1 := hLle b1 (by simp)
  have e2 : b2 ≤ 1 := hLle b2 (by simp)
  have e3 : b3 ≤ 1 := hLle b3 (by simp)
  have e4 : b4 ≤ 1 := hLle b4 (by simp)
  have e5 : b5 ≤ 1 := hLle b5 (by simp)
  have e6 : b6 ≤ 1 := hLle b6 (by simp)
  have e7 : b7 ≤ 1 := hLle b7 (by simp)
  simp only [valBits, List.foldl_cons, List.foldl_nil, Nat.shiftRight_eq_div_pow,
    Nat.and_one_is_mod]
  interval_cases i <;> simp only [List.getD_cons_zero, List.getD_cons_succ] <;> omega

theorem bitOf_bitsToBytes : ∀ (L : Nat) (bits : List Nat), bits.length ≤ L →
    (∀ x ∈ bits, x ≤ 1) → ∀ i, bitOf (bitsToBytes bits) i = bits.getD i 0 := by
  intro L
  induction L with
  | zero =>
    intro bits h _ i
    have : bits = [] := List.eq_nil_of_length_eq_zero (by omega)
    subst this
    simp [bitsToBytes, bitsToBytesF, bitOf]
  | succ L ihL =>
    intro bits h hle i
    rcases List.eq_nil_or_concat bits with rfl | ⟨l, x, hbx⟩
    · simp [bitsToBytes, bitsToBytesF, bitOf]
    · have hne : bits ≠ [] := by rw [hbx]; simp
      have hlen0 : bits.length ≠ 0 := fun h0 => hne (List.eq_nil_of_length_eq_zero h0)
      rw [bitsToBytes_unfold bits hne]
      by_cases hi : i < 8
      · have hdiv : i / 8 = 0 := Nat.div_eq_of_lt hi
        have hmod : i % 8 = i := Nat.mod_eq_of_lt hi
        rw [bitOf, hdiv, hmod, List.getD_cons_zero]
        rw [bitsOctet_bit (bits.take 8) (by simp) (fun x hx => hle x (List.mem_of_mem_take hx)) i hi]
        rw [List.getD_eq_getElem?_getD, List.getD_eq_getElem?_getD]
        by_cases hil : i < bits.length
        · have htl : i < (bits.take 8).length := by simp; omega
          rw [List.getElem?_append, if_pos htl, List.getElem?_take, if_pos hi]
        · have htl : (bits.take 8).length ≤ i := by simp; omega
          rw [List.getElem?_append, if_neg (by omega)]
          have hrep : i - (bits.take 8).length < 8 - (bits.take 8).length := by
            simp only [List.length_take] at htl ⊢
            omega
          rw [List.getElem?_replicate, if_pos hrep]
          rw [List.getElem?_eq_none (by omega)]
          rfl
      · have hdiv : i / 8 = (i - 8) / 8 + 1 := by omega
        have hmod : i % 8 = (i - 8) % 8 := by omega
        rw [bitOf, hdiv, hmod, List.getD_cons_succ]
        have := ihL (bits.drop 8)
          (by simp only [List.length_drop]; omega)
          (fun x hx => hle x (List.mem_of_mem_drop hx)) (i - 8)
        rw [bitOf] at this
        rw [this, List.getD_eq_getElem?_getD, List.getD_eq_getElem?_getD,
          List.getElem?_drop, show 8 + (i - 8) = i by omega]

theorem bitsVal_shift (bs : List Nat) : ∀ (c p : Nat),
    bitsVal bs p (c + 1) = bitOf bs p * 2 ^ c + bitsVal bs (p + 1) c := by
  intro c
  induction c with
  | zero => intro p; simp [bitsVal]
  | succ c ih =>
    intro p
    show 2 * bitsVal bs p (c + 1) + bitOf bs (p + (c + 1)) = _
    rw [ih p]
    show _ = bitOf bs p * 2 ^ (c + 1) + (2 * bitsVal bs (p + 1) c + bitOf bs (p + 1 + c))
    rw [show p + (c + 1) = p + 1 + c by omega]
    ring

theorem readBitsAux_spec : ∀ (count : Nat) (bs : List Nat) (p acc : Nat),
    p + count ≤ 8 * bs.length →
    readBitsAux ⟨bs, p / 8, p % 8⟩ acc count =
      (acc * 2 ^ count + bitsVal bs p count, ⟨bs, (p + count) / 8, (p + count) % 8⟩) := by
  intro count
  induction count with
  | zero => intro bs p acc h; simp [readBitsAux, bitsVal]
  | succ c ih =>
    intro bs p acc h
    rw [readBitsAux]
    rw [if_neg (by
      show ¬p / 8 ≥ bs.length
      have : p < 8 * bs.length := by omega
      omega)]
    have hr' : (if p % 8 + 1 = 8 then (⟨bs, p / 8 + 1, 0⟩ : BitstreamReader)
        else ⟨bs, p / 8, p % 8 + 1⟩) = ⟨bs, (p + 1) / 8, (p + 1) % 8⟩ := by
      by_cases h7 : p % 8 + 1 = 8
      · rw [if_pos h7]
        have e1 : p / 8 + 1 = (p + 1) / 8 := by omega
        have e2 : 0 = (p + 1) % 8 := by omega
        rw [e1, e2]
      · rw [if_neg h7]
        have e1 : p / 8 = (p + 1) / 8 := by omega
        have e2 : p % 8 + 1 = (p + 1) % 8 := by omega
        rw [e1, e2]
    simp only at hr' ⊢
    rw [hr', ih bs (p + 1) _ (by omega)]
    have hb : (bs.getD (p / 8) 0 >>> (7 - p % 8)) &&& 1 = bitOf bs p := rfl
    rw [hb, bitsVal_shift bs c p, show p + 1 + c = p + (c + 1) by omega]
    simp only [Prod.mk.injEq]
    exact ⟨by ring, trivial⟩

theorem egZeroLoop_spec : ∀ (z : Nat) (bs : List Nat) (p lz fuel : Nat),
    lz + z ≤ 32 → z + 1 ≤ fuel → p + z + 1 ≤ 8 * bs.length →
    (∀ i, i < z → bitOf bs (p + i) = 0) → bitOf bs (p + z) = 1 →
    egZeroLoop fuel ⟨bs, p / 8, p % 8⟩ lz =
      (some (lz + z), ⟨bs, (p + z + 1) / 8, (p + z + 1) % 8⟩) := by
  intro z
  induction z with
  | zero =>
    intro bs p lz fuel hcap hfuel hlen _ hone
    match fuel, hfuel with
    | f + 1, _ =>
      rw [egZeroLoop]
      have h1 : (⟨bs, p / 8, p % 8⟩ : BitstreamReader).readBits 1 =
          (bitOf bs p, ⟨bs, (p + 1) / 8, (p + 1) % 8⟩) := by
        rw [BitstreamReader.readBits, readBitsAux_spec 1 bs p 0 (by omega)]
        show (0 * 2 ^ 1 + (2 * bitsVal bs p 0 + bitOf bs (p + 0)), _) = _
        simp [bitsVal]
      simp only [h1]
      simp only [Nat.add_zero] at hone
      rw [if_neg (by omega)]
      rfl
  | succ z ih =>
    intro bs p lz fuel hcap hfuel hlen hzeros hone
    match fuel, hfuel with
    | f + 1, _ =>
      rw [egZeroLoop]
      have h1 : (⟨bs, p / 8, p % 8⟩ : BitstreamReader).readBits 1 =
          (bitOf bs p, ⟨bs, (p + 1) / 8, (p + 1) % 8⟩) := by
        rw [BitstreamReader.readBits, readBitsAux_spec 1 bs p 0 (by omega)]
        show (0 * 2 ^ 1 + (2 * bitsVal bs p 0 + bitOf bs (p + 0)), _) = _
        simp [bitsVal]
      simp only [h1]
      have hz0 : bitOf bs p = 0 := by
        have := hzeros 0 (by omega)
        simpa using this
      rw [if_pos hz0, if_neg (by omega)]
      have := ih bs (p + 1) (lz + 1) f (by omega) (by omega) (by omega)
        (fun i hi => by
          have := hzeros (i + 1) (by omega)
          rwa [show p + (i + 1) = p + 1 + i by omega] at this)
        (by rwa [show p + 1 + z = p + (z + 1) by omega])
      rw [this, show lz + 1 + z = lz + (z + 1) by omega,
        show p + 1 + z + 1 = p + (z + 1) + 1 by omega]

theorem valBits_acc : ∀ (t : List Nat) (a : Nat),
    t.foldl (fun x b => 2 * x + b) a = a * 2 ^ t.length + valBits t := by
  intro t
  induction t with
  | nil => intro a; simp [valBits]
  | cons b t ih =>
    intro a
    show t.foldl _ (2 * a + b) = _
    rw [ih (2 * a + b)]
    have hv : valBits (b :: t) = t.foldl (fun x b => 2 * x + b) (2 * 0 + b) := rfl
    rw [List.length_cons, hv, ih (2 * 0 + b)]
    ring

theorem valBits_cons (b : Nat) (t : List Nat) :
    valBits (b :: t) = b * 2 ^ t.length + valBits t := by
  show t.foldl _ (2 * 0 + b) = _
  rw [valBits_acc t (2 * 0 + b)]
  ring

theorem bitsVal_eq_valBits : ∀ (c : Nat) (bs : List Nat) (p : Nat) (t : List Nat),
    t.length = c → (∀ i, i < c → bitOf bs (p + i) = t.getD i 0) →
    bitsVal bs p c = valBits t := by
  intro c
  induction c with
  | zero =>
    intro bs p t hlen _
    have ht : t = [] := List.eq_nil_of_length_eq_zero hlen
    subst ht
    rfl
  | succ c ih =>
    intro bs p t hlen hbit
    rcases List.eq_nil_or_concat t with rfl | ⟨l, x, hlx⟩
    · have h0 : (0 : Nat) = c + 1 := hlen
      omega
    · rw [List.concat_eq_append] at hlx
      subst hlx
      have hll : l.length = c := by
        simp only [List.length_append, List.length_singleton] at hlen
        omega
      have hx : bitOf bs (p + c) = x := by
        have hc := hbit c (by omega)
        rw [hc, List.getD_eq_getElem?_getD, List.getElem?_append, if_neg (by omega),
          show c - l.length = 0 by omega]
        rfl
      have hpre : ∀ i, i < c → bitOf bs (p + i) = l.getD i 0 := by
        intro i hi
        have hc := hbit i (by omega)
        rw [hc, List.getD_eq_getElem?_getD, List.getElem?_append, if_pos (by omega),
          List.getD_eq_getElem?_getD]
      show 2 * bitsVal bs p c + bitOf bs (p + c) = _
      rw [ih bs p l hll hpre, hx, valBits_append]

/-- C7 (amended): for every `k` with `k + 1 < 2^33` — that is, whenever the
Exp-Golomb code of `k` has at most 32 leading zeros, so the safety cap of
`read_exp_golomb` does not fire — decoding the Exp-Golomb encoding of `k`
(`floor(log2(k+1))` zero bits, then `k+1` in binary, packed MSB-first into
bytes) with `read_exp_golomb` returns `k`. -/
theorem c7_exp_golomb_roundtrip (k : Nat) (h : k + 1 < 2 ^ 33) :
    ((BitstreamReader.fresh (bitsToBytes (expGolombBits k))).readExpGolomb).1 = k := by
  obtain ⟨t, ht⟩ := natBits_head (k + 1) (by omega)
  have hlen : (natBits (k + 1)).length ≤ 33 := natBits_length_le (k + 1) 33 h
  have hz : (natBits (k + 1)).length = t.length + 1 := by rw [ht]; rfl
  have hzle : t.length ≤ 32 := by omega
  have hbits : expGolombBits k = List.replicate t.length 0 ++ 1 :: t := by
    rw [expGolombBits, ht]
    simp
  have hle1 : ∀ x ∈ expGolombBits k, x ≤ 1 := by
    intro x hx
    rw [expGolombBits] at hx
    rcases List.mem_append.mp hx with h1 | h1
    · rw [List.eq_of_mem_replicate h1]
      omega
    · exact natBits_le_one (k + 1) x h1
  have hblen : (expGolombBits k).length = 2 * t.length + 1 := by
    rw [hbits]
    simp only [List.length_append, List.length_replicate, List.length_cons]
    omega
  have hbslen : 2 * t.length + 1 ≤ 8 * (bitsToBytes (expGolombBits k)).length := by
    rw [bitsToBytes_length (expGolombBits k).length _ (le_refl _), hblen]
    omega
  have hbit : ∀ i, bitOf (bitsToBytes (expGolombBits k)) i =
      (List.replicate t.length 0 ++ 1 :: t).getD i 0 := by
    intro i
    rw [bitOf_bitsToBytes (expGolombBits k).length _ (le_refl _) hle1 i, hbits]
  have hzeros : ∀ i, i < t.length → bitOf (bitsToBytes (expGolombBits k)) (0 + i) = 0 := by
    intro i hi
    rw [Nat.zero_add, hbit i, List.getD_eq_getElem?_getD, List.getElem?_append,
      if_pos (by simpa using hi), List.getElem?_replicate, if_pos hi]
    rfl
  have hone : bitOf (bitsToBytes (expGolombBits k)) (0 + t.length) = 1 := by
    rw [Nat.zero_add, hbit, List.getD_eq_getElem?_getD, List.getElem?_append,
      if_neg (by simp)]
    simp
  have hspec := egZeroLoop_spec t.length (bitsToBytes (expGolombBits k)) 0 0 34
    (by omega) (by omega) (by omega) hzeros hone
  simp only [Nat.zero_add, Nat.zero_div, Nat.zero_mod] at hspec
  have hval : valBits (1 :: t) = k + 1 := by
    rw [← ht, natBits_val]
  have hcons : 2 ^ t.length + valBits t = k + 1 := by
    rw [← hval, valBits_cons]
    ring
  cases hzt : t.length with
  | zero =>
    rw [hzt] at hspec
    rw [hzt] at hcons
    simp only [pow_zero] at hcons
    have hk : k = 0 := by
      have h0 : valBits t = 0 := by
        rw [List.eq_nil_of_length_eq_zero hzt]
        rfl
      omega
    simp only [BitstreamReader.fresh, BitstreamReader.readExpGolomb, hspec]
    omega
  | succ m =>
    rw [hzt] at hspec
    simp only [BitstreamReader.fresh, BitstreamReader.readExpGolomb, hspec]
    have hrb := readBitsAux_spec (m + 1) (bitsToBytes (expGolombBits k)) (m + 1 + 1) 0
      (by omega)
    simp only [BitstreamReader.readBits, hrb]
    rw [Nat.one_shiftLeft]
    rw [bitsVal_eq_valBits (m + 1) (bitsToBytes (expGolombBits k)) (m + 1 + 1) t hzt
      (by
        intro i hi
        rw [hbit, List.getD_eq_getElem?_getD, List.getElem?_append,
          if_neg (by simp only [List.length_replicate]; omega)]
        simp only [List.length_replicate]
        rw [show m + 1 + 1 + i - t.length = i + 1 by omega, List.getElem?_cons_succ,
          List.getD_eq_getElem?_getD])]
    rw [hzt] at hcons
    have hb : 1 ≤ 2 ^ (m + 1) := Nat.one_le_two_pow
    omega

/-- C7 witness: the amended round trip at `k = 5` (code `00110`). -/
theorem c7_exp_golomb_roundtrip_witness :
    5 + 1 < 2 ^ 33 ∧
      ((BitstreamReader.fresh (bitsToBytes (expGolombBits 5))).readExpGolomb).1 = 5 :=
  ⟨by decide, c7_exp_golomb_roundtrip 5 (by decide)⟩

/-- C7 counterexample to the unrestricted claim: at `k = 2^33 - 1` the code
has 33 leading zeros, the safety cap of the zero-counting loop (video.rs
421-423) fires, and `read_exp_golomb` returns 0, not `k`. -/
theorem c7_cap_counterexample :
    ((BitstreamReader.fresh (bitsToBytes (expGolombBits (2 ^ 33 - 1)))).readExpGolomb).1 = 0 ∧
      (0 : Nat) ≠ 2 ^ 33 - 1 := by
  constructor
  · rfl
  · decide

/-! ## `src/rtmp/amf0.rs` — AMF0 decoder and encoder (C2, C9)

`Amf0Value` mirrors the source enum.  Rust `String`s are modelled as their
UTF-8 byte lists; `String::from_utf8_lossy` is the identity on valid UTF-8
input, which covers every byte sequence produced by the encoder from a
`String` (including the ASCII counterexample below), so `read_utf8` simply
returns the byte slice.  `f64` is modelled by its 64-bit big-endian bit
pattern: `f64::from_be_bytes` and `f64::to_be_bytes` are mutually inverse
on bit patterns, so `Number` carries the pattern as a `Nat < 2^64`. -/

inductive Amf0Value where
  | number (bits : Nat)
  | boolean (b : Bool)
  | str (s : List Nat)
  | object (pairs : List (List Nat × Amf0Value))
  | null
  | undefined
  | ecmaArray (pairs : List (List Nat × Amf0Value))
  | strictArray (items : List Amf0Value)

/-- Big-endian 64-bit read at `p`: mirrors `f64::from_be_bytes` on the bit
pattern. -/
def be64At (l : List Nat) (p : Nat) : Nat :=
  (((((((l.getD p 0) * 256 + l.getD (p + 1) 0) * 256 + l.getD (p + 2) 0) * 256 +
    l.getD (p + 3) 0) * 256 + l.getD (p + 4) 0) * 256 + l.getD (p + 5) 0) * 256 +
    l.getD (p + 6) 0) * 256 + l.getD (p + 7) 0

/-- Big-endian 64-bit byte string of `n % 2 ^ 64`: mirrors
`f64::to_be_bytes` on the bit pattern. -/
def be64Bytes (n : Nat) : List Nat :=
  [n / 72057594037927936 % 256, n / 281474976710656 % 256, n / 1099511627776 % 256,
   n / 4294967296 % 256, n / 16777216 % 256, n / 65536 % 256, n / 256 % 256, n % 256]

/-- `Amf0Encoder::write_utf8` (amf0.rs 292-296): 2-byte big-endian length
capped at `u16::MAX`, then the first `len` bytes of the string. -/
def encodeUtf8 (s : List Nat) : List Nat :=
  be16Bytes (min s.length 65535) ++ s.take (min s.length 65535)

mutual
/-- `Amf0Encoder::write_value` (amf0.rs 298-332); `Undefined` is written as
Null, `EcmaArray` as an anonymous object, and a strict array's count is
`items.len() as u32`. -/
def encodeValue : Amf0Value → List Nat
  | .number bits => 0x00 :: be64Bytes bits
  | .boolean b => [0x01, if b then 1 else 0]
  | .str s => 0x02 :: encodeUtf8 s
  | .object pairs => 0x03 :: (encodePairs pairs ++ [0x00, 0x00, 0x09])
  | .null => [0x05]
  | .undefined => [0x05]
  | .ecmaArray pairs => 0x03 :: (encodePairs pairs ++ [0x00, 0x00, 0x09])
  | .strictArray items =>
    0x0A :: (be32Bytes (items.length % 4294967296) ++ encodeItems items)
/-- The property loop of `Amf0Encoder::write_object` (amf0.rs 283-286). -/
def encodePairs : List (List Nat × Amf0Value) → List Nat
  | [] => []
  | (k, v) :: rest => encodeUtf8 k ++ (encodeValue v ++ encodePairs rest)
/-- The item loop of the `StrictArray` arm (amf0.rs 327-329). -/
def encodeItems : List Amf0Value → List Nat
  | [] => []
  | v :: rest => encodeValue v ++ encodeItems rest
end

mutual
/-- The encoder-faithful values (stated for the amended C2): only the
constructors the encoder writes losslessly, strings and keys that fit the
16-bit length field, numbers that are 64-bit patterns, strict arrays whose
length fits the 32-bit count. -/
def wellFormed : Amf0Value → Bool
  | .number bits => decide (bits < 18446744073709551616)
  | .boolean _ => true
  | .str s => decide (s.length ≤ 65535)
  | .object pairs => wfPairs pairs
  | .null => true
  | .undefined => false
  | .ecmaArray _ => false
  | .strictArray items => decide (items.length < 4294967296) && wfItems items
/-- `wellFormed` over object properties. -/
def wfPairs : List (List Nat × Amf0Value) → Bool
  | [] => true
  | (k, v) :: rest => decide (k.length ≤ 65535) && wellFormed v && wfPairs rest
/-- `wellFormed` over strict-array items. -/
def wfItems : List Amf0Value → Bool
  | [] => true
  | v :: rest => wellFormed v && wfItems rest
end

/-- `Amf0Decoder::read_utf8` (amf0.rs 143-155).  Returns the new `pos` in
every case, since the source mutates `self.pos` before its second bounds
check can fail. -/
def readUtf8 (data : List Nat) (p : Nat) : Option (List Nat) × Nat :=
  if data.length < p + 2 then (none, p)
  else if data.length < p + 2 + be16At data p then (none, p + 2)
  else (some ((data.drop (p + 2)).take (be16At data p)), p + 2 + be16At data p)

/-- `Amf0Decoder::read_number` (amf0.rs 125-132). -/
def readNumber (data : List Nat) (p : Nat) : Option Amf0Value × Nat :=
  if data.length < p + 8 then (none, p)
  else (some (.number (be64At data p)), p + 8)

/-- `Amf0Decoder::read_boolean` (amf0.rs 134-141). -/
def readBoolean (data : List Nat) (p : Nat) : Option Amf0Value × Nat :=
  if data.length ≤ p then (none, p)
  else (some (.boolean (data.getD p 0 != 0)), p + 1)

/-- `Amf0Decoder::read_string` (amf0.rs 157-159). -/
def readStringV (data : List Nat) (p : Nat) : Option Amf0Value × Nat :=
  match readUtf8 data p with
  | (none, q) => (none, q)
  | (some s, q) => (some (.str s), q)

/-- `Amf0Decoder::read_long_string` (amf0.rs 161-178). -/
def readLongStringV (data : List Nat) (p : Nat) : Option Amf0Value × Nat :=
  if data.length < p + 4 then (none, p)
  else if data.length < p + 4 + be32At data p then (none, p + 4)
  else (some (.str ((data.drop (p + 4)).take (be32At data p))), p + 4 + be32At data p)

mutual
/-- `Amf0Decoder::decode` (amf0.rs 93-115), with explicit fuel for the
mutual recursion through object bodies and strict arrays; every recursive
call strictly advances `pos`, so any fuel above the remaining byte count is
enough (`amfStable` below).  Returns the final `pos` alongside the result,
because the source advances `self.pos` past the marker before a sub-reader
can fail. -/
def decodeF : Nat → List Nat → Nat → Option Amf0Value × Nat
  | 0, _, pos => (none, pos)
  | fuel + 1, data, pos =>
    if data.length ≤ pos then (none, pos)
    else if data.getD pos 0 = 0x00 then readNumber data (pos + 1)
    else if data.getD pos 0 = 0x01 then readBoolean data (pos + 1)
    else if data.getD pos 0 = 0x02 then readStringV data (pos + 1)
    else if data.getD pos 0 = 0x03 then
      match readPropsF fuel data (pos + 1) with
      | (none, p) => (none, p)
      | (some pairs, p) => (some (.object pairs), p)
    else if data.getD pos 0 = 0x05 then (some .null, pos + 1)
    else if data.getD pos 0 = 0x06 then (some .undefined, pos + 1)
    else if data.getD pos 0 = 0x08 then
      if data.length < pos + 1 + 4 then (none, pos + 1)
      else match readPropsF fuel data (pos + 5) with
        | (none, p) => (none, p)
        | (some pairs, p) => (some (.ecmaArray pairs), p)
    else if data.getD pos 0 = 0x0A then
      if data.length < pos + 1 + 4 then (none, pos + 1)
      else (some (.strictArray (readItemsF fuel data (pos + 5) (be32At data (pos + 1))).1),
        (readItemsF fuel data (pos + 5) (be32At data (pos + 1))).2)
    else if data.getD pos 0 = 0x0C then readLongStringV data (pos + 1)
    else (none, pos + 1)
/-- `Amf0Decoder::read_object_properties` (amf0.rs 180-204): stop on the
`00 00 09` end marker, tolerate an empty key followed by a bare `09`,
otherwise read a key and a value and continue. -/
def readPropsF : Nat → List Nat → Nat → Option (List (List Nat × Amf0Value)) × Nat
  | 0, _, pos => (none, pos)
  | fuel + 1, data, pos =>
    if pos + 3 ≤ data.length ∧ data.getD pos 0 = 0x00 ∧ data.getD (pos + 1) 0 = 0x00 ∧
        data.getD (pos + 2) 0 = 0x09 then (some [], pos + 3)
    else match readUtf8 data pos with
      | (none, p) => (none, p)
      | (some key, p1) =>
        if key = [] ∧ p1 < data.length ∧ data.getD p1 0 = 0x09 then (some [], p1 + 1)
        else match decodeF fuel data p1 with
          | (none, p2) => (none, p2)
          | (some v, p2) =>
            match readPropsF fuel data p2 with
            | (none, p3) => (none, p3)
            | (some pairs, p3) => (some ((key, v) :: pairs), p3)
/-- The item loop of `Amf0Decoder::read_strict_array` (amf0.rs 230-236): run
`count` times, break on a failed decode keeping the items so far (and the
position the failed decode reached). -/
def readItemsF : Nat → List Nat → Nat → Nat → List Amf0Value × Nat
  | 0, _, pos, _ => ([], pos)
  | _ + 1, _, pos, 0 => ([], pos)
  | fuel + 1, data, pos, count + 1 =>
    match decodeF fuel data pos with
    | (none, p) => ([], p)
    | (some v, p) =>
      (v :: (readItemsF fuel data p count).1, (readItemsF fuel data p count).2)
termination_by structural fuel _ _ _ => fuel
end

/-- `Amf0Decoder::decode` with the canonical fuel: one more than the bytes
remaining.  `amfStable` shows every fuel at least this large gives the same
result, so this is the source function's denotation. -/
def Amf0Decoder.decode (data : List Nat) (pos : Nat) : Option Amf0Value × Nat :=
  decodeF (data.length - pos + 1) data pos

theorem getD_at_length (pre : List Nat) (x : Nat) (l : List Nat) :
    (pre ++ x :: l).getD pre.length 0 = x := by
  rw [List.getD_eq_getElem?_getD, List.getElem?_append, if_neg (by omega),
    Nat.sub_self, List.getElem?_cons_zero]
  rfl

theorem getD_append_right (pre l : List Nat) (i : Nat) :
    (pre ++ l).getD (pre.length + i) 0 = l.getD i 0 := by
  rw [List.getD_eq_getElem?_getD, List.getElem?_append, if_neg (by omega),
    Nat.add_sub_cancel_left, List.getD_eq_getElem?_getD]

theorem encodeUtf8_length (s : List Nat) :
    (encodeUtf8 s).length = 2 + min s.length 65535 := by
  simp [encodeUtf8, be16Bytes]
  omega

theorem readUtf8_encode_gen (k pre rest : List Nat) :
    readUtf8 (pre ++ (encodeUtf8 k ++ rest)) pre.length =
      (some (k.take (min k.length 65535)),
        pre.length + 2 + min k.length 65535) := by
  have hm : min k.length 65535 ≤ k.length := min_le_left _ _
  have htl : (k.take (min k.length 65535)).length = min k.length 65535 := by
    simp only [List.length_take]
    omega
  have hlen : (pre ++ (encodeUtf8 k ++ rest)).length =
      pre.length + (2 + min k.length 65535) + rest.length := by
    simp [encodeUtf8_length]
    omega
  have hb0 : (pre ++ (encodeUtf8 k ++ rest)).getD pre.length 0 =
      min k.length 65535 / 256 % 256 := by
    have : pre ++ (encodeUtf8 k ++ rest) =
        pre ++ (min k.length 65535 / 256 % 256 ::
          (min k.length 65535 % 256 :: (k.take (min k.length 65535) ++ rest))) := by
      simp [encodeUtf8, be16Bytes]
    rw [this, getD_at_length]
  have hb1 : (pre ++ (encodeUtf8 k ++ rest)).getD (pre.length + 1) 0 =
      min k.length 65535 % 256 := by
    have : pre ++ (encodeUtf8 k ++ rest) =
        (pre ++ [min k.length 65535 / 256 % 256]) ++
          (min k.length 65535 % 256 :: (k.take (min k.length 65535) ++ rest)) := by
      simp [encodeUtf8, be16Bytes]
    rw [this, show pre.length + 1 = (pre ++ [min k.length 65535 / 256 % 256]).length
      by simp, getD_at_length]
  have h16 : be16At (pre ++ (encodeUtf8 k ++ rest)) pre.length = min k.length 65535 := by
    rw [be16At, hb0, hb1]
    have : min k.length 65535 < 65536 := by omega
    omega
  rw [readUtf8]
  simp only [h16]
  rw [if_neg (by omega), if_neg (by omega)]
  have hdrop : (pre ++ (encodeUtf8 k ++ rest)).drop (pre.length + 2) =
      k.take (min k.length 65535) ++ rest := by
    have : pre ++ (encodeUtf8 k ++ rest) =
        (pre ++ be16Bytes (min k.length 65535)) ++
          (k.take (min k.length 65535) ++ rest) := by
      simp [encodeUtf8]
    rw [this, show pre.length + 2 = (pre ++ be16Bytes (min k.length 65535)).length
      by simp [be16Bytes], List.drop_left]
  rw [hdrop]
  have htake : (k.take (min k.length 65535) ++ rest).take (min k.length 65535) =
      k.take (min k.length 65535) := by
    have h2 := List.take_left (k.take (min k.length 65535)) rest
    rw [htl] at h2
    exact h2
  rw [htake]

theorem readUtf8_encode (k : List Nat) (hk : k.length ≤ 65535) (pre rest : List Nat) :
    readUtf8 (pre ++ (encodeUtf8 k ++ rest)) pre.length =
      (some k, pre.length + 2 + k.length) := by
  have hm : min k.length 65535 = k.length := min_eq_left hk
  rw [readUtf8_encode_gen, hm, List.take_length]

theorem readUtf8_exit (data : List Nat) (p : Nat) : p ≤ (readUtf8 data p).2 := by
  rw [readUtf8]
  split
  · omega
  · split
    · simp only
      omega
    · simp only
      omega

theorem readUtf8_some (data : List Nat) (p : Nat) (k : List Nat) (q : Nat)
    (h : readUtf8 data p = (some k, q)) :
    q = p + 2 + k.length ∧ p + 2 + k.length ≤ data.length := by
  rw [readUtf8] at h
  split at h
  · simp at h
  · split at h
    · simp at h
    · simp only [Prod.mk.injEq, Option.some.injEq] at h
      obtain ⟨hk, hq⟩ := h
      have hl : k.length = be16At data p := by
        rw [← hk]
        simp only [List.length_take, List.length_drop]
        omega
      omega

theorem readNumber_exit (data : List Nat) (p : Nat) : p ≤ (readNumber data p).2 := by
  rw [readNumber]
  split <;> simp

theorem readBoolean_exit (data : List Nat) (p : Nat) : p ≤ (readBoolean data p).2 := by
  rw [readBoolean]
  split <;> simp

theorem readStringV_exit (data : List Nat) (p : Nat) : p ≤ (readStringV data p).2 := by
  have hu := readUtf8_exit data p
  rw [readStringV]
  split <;> rename_i q heq <;> rw [heq] at hu <;> exact hu

theorem readLongStringV_exit (data : List Nat) (p : Nat) : p ≤ (readLongStringV data p).2 := by
  rw [readLongStringV]
  split
  · simp
  · split <;> (dsimp only; omega)

theorem amfExit : ∀ fuel : Nat,
    (∀ data pos, pos ≤ (decodeF fuel data pos).2 ∧
      ((decodeF fuel data pos).1.isSome = true → pos + 1 ≤ (decodeF fuel data pos).2)) ∧
    (∀ data pos, pos ≤ (readPropsF fuel data pos).2) ∧
    (∀ data pos count, pos ≤ (readItemsF fuel data pos count).2) := by
  intro fuel
  induction fuel with
  | zero =>
    refine ⟨fun data pos => ⟨le_refl _, fun h => by simp [decodeF] at h⟩,
      fun data pos => le_refl _, fun data pos count => le_refl _⟩
  | succ fuel ih =>
    obtain ⟨ihd, ihp, ihi⟩ := ih
    have hitems : ∀ data pos count, pos ≤ (readItemsF (fuel + 1) data pos count).2 := by
      intro data pos count
      match count with
      | 0 => exact le_refl _
      | count + 1 =>
        simp only [readItemsF]
        split
        · rename_i p heq
          have h := (ihd data pos).1
          rw [heq] at h
          exact h
        · rename_i v p heq
          have h1 := (ihd data pos).1
          rw [heq] at h1
          have h2 := ihi data p count
          simp only at h1 ⊢
          omega
    have hprops : ∀ data pos, pos ≤ (readPropsF (fuel + 1) data pos).2 := by
      intro data pos
      simp only [readPropsF]
      split
      · simp
      · split
        · rename_i p heq
          have h := readUtf8_exit data pos
          rw [heq] at h
          exact h
        · rename_i key p1 heq
          have hu := readUtf8_exit data pos
          rw [heq] at hu
          simp only at hu
          split
          · omega
          · split
            · rename_i p2 heq2
              have h := (ihd data p1).1
              rw [heq2] at h
              simp only at h ⊢
              omega
            · rename_i v p2 heq2
              have h := (ihd data p1).1
              rw [heq2] at h
              simp only at h
              split
              · rename_i p3 heq3
                have h3 := ihp data p2
                rw [heq3] at h3
                simp only at h3 ⊢
                omega
              · rename_i pairs p3 heq3
                have h3 := ihp data p2
                rw [heq3] at h3
                simp only at h3 ⊢
                omega
    refine ⟨?_, hprops, hitems⟩
    intro data pos
    have key : ∀ r : Option Amf0Value × Nat, decodeF (fuel + 1) data pos = r →
        pos ≤ r.2 ∧ (r.1.isSome = true → pos + 1 ≤ r.2) := by
      intro r hr
      rw [decodeF] at hr
      by_cases h0 : data.length ≤ pos
      · rw [if_pos h0] at hr
        subst hr
        exact ⟨le_refl _, fun h => by simp at h⟩
      rw [if_neg h0] at hr
      by_cases h1 : data.getD pos 0 = 0x00
      · rw [if_pos h1] at hr
        subst hr
        have h := readNumber_exit data (pos + 1)
        exact ⟨by omega, fun _ => h⟩
      rw [if_neg h1] at hr
      by_cases h2 : data.getD pos 0 = 0x01
      · rw [if_pos h2] at hr
        subst hr
        have h := readBoolean_exit data (pos + 1)
        exact ⟨by omega, fun _ => h⟩
      rw [if_neg h2] at hr
      by_cases h3 : data.getD pos 0 = 0x02
      · rw [if_pos h3] at hr
        subst hr
        have h := readStringV_exit data (pos + 1)
        exact ⟨by omega, fun _ => h⟩
      rw [if_neg h3] at hr
      by_cases h4 : data.getD pos 0 = 0x03
      · rw [if_pos h4] at hr
        split at hr
        · rename_i p heq
          subst hr
          have h := ihp data (pos + 1)
          rw [heq] at h
          simp only at h ⊢
          exact ⟨by omega, fun _ => by omega⟩
        · rename_i pairs p heq
          subst hr
          have h := ihp data (pos + 1)
          rw [heq] at h
          simp only at h ⊢
          exact ⟨by omega, fun _ => by omega⟩
      rw [if_neg h4] at hr
      by_cases h5 : data.getD pos 0 = 0x05
      · rw [if_pos h5] at hr
        subst hr
        exact ⟨by omega, fun _ => by omega⟩
      rw [if_neg h5] at hr
      by_cases h6 : data.getD pos 0 = 0x06
      · rw [if_pos h6] at hr
        subst hr
        exact ⟨by omega, fun _ => by omega⟩
      rw [if_neg h6] at hr
      by_cases h7 : data.getD pos 0 = 0x08
      · rw [if_pos h7] at hr
        by_cases h7a : data.length < pos + 1 + 4
        · rw [if_pos h7a] at hr
          subst hr
          exact ⟨by omega, fun _ => by omega⟩
        rw [if_neg h7a] at hr
        split at hr
        · rename_i p heq
          subst hr
          have h := ihp data (pos + 5)
          rw [heq] at h
          simp only at h ⊢
          exact ⟨by omega, fun _ => by omega⟩
        · rename_i pairs p heq
          subst hr
          have h := ihp data (pos + 5)
          rw [heq] at h
          simp only at h ⊢
          exact ⟨by omega, fun _ => by omega⟩
      rw [if_neg h7] at hr
      by_cases h8 : data.getD pos 0 = 0x0A
      · rw [if_pos h8] at hr
        by_cases h8a : data.length < pos + 1 + 4
        · rw [if_pos h8a] at hr
          subst hr
          exact ⟨by omega, fun _ => by omega⟩
        rw [if_neg h8a] at hr
        subst hr
        have h := ihi data (pos + 5) (be32At data (pos + 1))
        exact ⟨by omega, fun _ => by omega⟩
      rw [if_neg h8] at hr
      by_cases h9 : data.getD pos 0 = 0x0C
      · rw [if_pos h9] at hr
        subst hr
        have h := readLongStringV_exit data (pos + 1)
        exact ⟨by omega, fun _ => h⟩
      rw [if_neg h9] at hr
      subst hr
      exact ⟨by omega, fun _ => by omega⟩
    exact key _ rfl

theorem decodeF_some_lt (fuel : Nat) (data : List Nat) (pos : Nat) (v : Amf0Value) (p : Nat)
    (h : decodeF fuel data pos = (some v, p)) : pos < data.length := by
  match fuel with
  | 0 => simp [decodeF] at h
  | fuel + 1 =>
    rw [decodeF] at h
    by_cases h0 : data.length ≤ pos
    · rw [if_pos h0] at h
      simp at h
    · omega

theorem amfStable : ∀ N : Nat, ∀ data : List Nat, ∀ pos : Nat, data.length - pos ≤ N →
    (∀ f1 f2, data.length - pos + 1 ≤ f1 → data.length - pos + 1 ≤ f2 →
      decodeF f1 data pos = decodeF f2 data pos) ∧
    (∀ f1 f2, data.length - pos + 1 ≤ f1 → data.length - pos + 1 ≤ f2 →
      readPropsF f1 data pos = readPropsF f2 data pos) ∧
    (∀ count f1 f2, data.length - pos + 2 ≤ f1 → data.length - pos + 2 ≤ f2 →
      readItemsF f1 data pos count = readItemsF f2 data pos count) := by
  intro N
  induction N using Nat.strong_induction_on with
  | _ N ih =>
    intro data pos hN
    have hdec : ∀ f1 f2, data.length - pos + 1 ≤ f1 → data.length - pos + 1 ≤ f2 →
        decodeF f1 data pos = decodeF f2 data pos := by
      intro f1 f2 h1 h2
      match f1, f2, h1, h2 with
      | a + 1, b + 1, h1, h2 =>
        rw [decodeF]
        rw [decodeF]
        by_cases h0 : data.length ≤ pos
        · rw [if_pos h0, if_pos h0]
        rw [if_neg h0, if_neg h0]
        by_cases hm1 : data.getD pos 0 = 0x00
        · rw [if_pos hm1, if_pos hm1]
        rw [if_neg hm1, if_neg hm1]
        by_cases hm2 : data.getD pos 0 = 0x01
        · rw [if_pos hm2, if_pos hm2]
        rw [if_neg hm2, if_neg hm2]
        by_cases hm3 : data.getD pos 0 = 0x02
        · rw [if_pos hm3, if_pos hm3]
        rw [if_neg hm3, if_neg hm3]
        by_cases hm4 : data.getD pos 0 = 0x03
        · rw [if_pos hm4, if_pos hm4]
          have hp : readPropsF a data (pos + 1) = readPropsF b data (pos + 1) := by
            have := (ih (data.length - (pos + 1)) (by omega) data (pos + 1) (le_refl _)).2.1
            exact this a b (by omega) (by omega)
          rw [hp]
        rw [if_neg hm4, if_neg hm4]
        by_cases hm5 : data.getD pos 0 = 0x05
        · rw [if_pos hm5, if_pos hm5]
        rw [if_neg hm5, if_neg hm5]
        by_cases hm6 : data.getD pos 0 = 0x06
        · rw [if_pos hm6, if_pos hm6]
        rw [if_neg hm6, if_neg hm6]
        by_cases hm7 : data.getD pos 0 = 0x08
        · rw [if_pos hm7, if_pos hm7]
          by_cases h7a : data.length < pos + 1 + 4
          · rw [if_pos h7a, if_pos h7a]
          rw [if_neg h7a, if_neg h7a]
          have hp : readPropsF a data (pos + 5) = readPropsF b data (pos + 5) := by
            have := (ih (data.length - (pos + 5)) (by omega) data (pos + 5) (le_refl _)).2.1
            exact this a b (by omega) (by omega)
          rw [hp]
        rw [if_neg hm7, if_neg hm7]
        by_cases hm8 : data.getD pos 0 = 0x0A
        · rw [if_pos hm8, if_pos hm8]
          by_cases h8a : data.length < pos + 1 + 4
          · rw [if_pos h8a, if_pos h8a]
          rw [if_neg h8a, if_neg h8a]
          have hi : readItemsF a data (pos + 5) (be32At data (pos + 1)) =
              readItemsF b data (pos + 5) (be32At data (pos + 1)) := by
            have := (ih (data.length - (pos + 5)) (by omega) data (pos + 5) (le_refl _)).2.2
            exact this (be32At data (pos + 1)) a b (by omega) (by omega)
          rw [hi]
        rw [if_neg hm8, if_neg hm8]
    refine ⟨hdec, ?_, ?_⟩
    · intro f1 f2 h1 h2
      match f1, f2, h1, h2 with
      | a + 1, b + 1, h1, h2 =>
        rw [readPropsF]
        rw [readPropsF]
        by_cases hEM : pos + 3 ≤ data.length ∧ data.getD pos 0 = 0x00 ∧
            data.getD (pos + 1) 0 = 0x00 ∧ data.getD (pos + 2) 0 = 0x09
        · rw [if_pos hEM, if_pos hEM]
        rw [if_neg hEM, if_neg hEM]
        rcases hu : readUtf8 data pos with ⟨ku, p1⟩
        rcases ku with _ | k
        · simp only [hu]
        simp only [hu]
        obtain ⟨hp1, hbound⟩ := readUtf8_some data pos k p1 hu
        by_cases hek : k = [] ∧ p1 < data.length ∧ data.getD p1 0 = 0x09
        · rw [if_pos hek, if_pos hek]
        rw [if_neg hek, if_neg hek]
        have hd : decodeF a data p1 = decodeF b data p1 := by
          have := (ih (data.length - p1) (by omega) data p1 (le_refl _)).1
          exact this a b (by omega) (by omega)
        rw [hd]
        rcases hd2 : decodeF b data p1 with ⟨vo, p2⟩
        rcases vo with _ | v
        · simp only [hd2]
        simp only [hd2]
        have hlt : p1 < data.length := decodeF_some_lt b data p1 v p2 hd2
        have hadv : p1 + 1 ≤ p2 := by
          have hEx := ((amfExit b).1 data p1).2
          rw [hd2] at hEx
          exact hEx rfl
        have hp : readPropsF a data p2 = readPropsF b data p2 := by
          have := (ih (data.length - p2) (by omega) data p2 (le_refl _)).2.1
          exact this a b (by omega) (by omega)
        rw [hp]
    · intro count f1 f2 h1 h2
      match count, f1, f2, h1, h2 with
      | 0, a + 1, b + 1, _, _ => rfl
      | count + 1, a + 1, b + 1, h1, h2 =>
        rw [readItemsF]
        rw [readItemsF]
        have hd : decodeF a data pos = decodeF b data pos :=
          hdec a b (by omega) (by omega)
        rw [hd]
        rcases hdd : decodeF b data pos with ⟨vo, p⟩
        rcases vo with _ | v
        · simp only [hdd]
        simp only [hdd]
        have hlt : pos < data.length := decodeF_some_lt b data pos v p hdd
        have hadv : pos + 1 ≤ p := by
          have hEx := ((amfExit b).1 data pos).2
          rw [hdd] at hEx
          exact hEx rfl
        have hi : readItemsF a data p count = readItemsF b data p count := by
          have := (ih (data.length - p) (by omega) data p (le_refl _)).2.2
          exact this count a b (by omega) (by omega)
        rw [hi]

/-- C9: `Amf0Decoder::decode` terminates on every input and stays in
bounds: with any fuel beyond the bytes remaining the fuel-indexed embedding
`decodeF` computes one fixed result (so the source recursion, whose every
step strictly advances `pos`, terminates with that result); the final
position never moves backwards, and a successful decode consumes at least
the marker byte.  Out-of-range reads never occur: every access in
`decodeF` and its sub-readers is the `getD` image of a source read guarded
by the same explicit bounds check. -/
theorem c9_decode_total (data : List Nat) (pos : Nat) (f1 f2 : Nat)
    (h1 : data.length - pos + 1 ≤ f1) (h2 : data.length - pos + 1 ≤ f2) :
    decodeF f1 data pos = Amf0Decoder.decode data pos ∧
    decodeF f2 data pos = Amf0Decoder.decode data pos ∧
    pos ≤ (Amf0Decoder.decode data pos).2 ∧
    ((Amf0Decoder.decode data pos).1.isSome = true →
      pos + 1 ≤ (Amf0Decoder.decode data pos).2) := by
  have hs := (amfStable (data.length - pos) data pos (le_refl _)).1
  have hEx := (amfExit (data.length - pos + 1)).1 data pos
  exact ⟨hs f1 (data.length - pos + 1) h1 (le_refl _),
    hs f2 (data.length - pos + 1) h2 (le_refl _), hEx.1, hEx.2⟩

/-- C9 witness: the theorem applied to the bytes of an empty object with
two different fuels. -/
theorem c9_decode_total_witness :
    ([3, 0, 0, 9] : List Nat).length - 0 + 1 ≤ 5 ∧
    ([3, 0, 0, 9] : List Nat).length - 0 + 1 ≤ 9 ∧
    (decodeF 5 [3, 0, 0, 9] 0 = Amf0Decoder.decode [3, 0, 0, 9] 0 ∧
      decodeF 9 [3, 0, 0, 9] 0 = Amf0Decoder.decode [3, 0, 0, 9] 0 ∧
      0 ≤ (Amf0Decoder.decode [3, 0, 0, 9] 0).2 ∧
      ((Amf0Decoder.decode [3, 0, 0, 9] 0).1.isSome = true →
        0 + 1 ≤ (Amf0Decoder.decode [3, 0, 0, 9] 0).2)) :=
  ⟨by decide, by decide, c9_decode_total [3, 0, 0, 9] 0 5 9 (by decide) (by decide)⟩

theorem getD_append_mid (pre l r : List Nat) (i : Nat) (h : i < l.length) :
    (pre ++ (l ++ r)).getD (pre.length + i) 0 = l.getD i 0 := by
  rw [← List.append_assoc, List.getD_eq_getElem?_getD, List.getElem?_append,
    if_pos (by simp only [List.length_append]; omega)]
  rw [List.getElem?_append, if_neg (by omega), Nat.add_sub_cancel_left,
    List.getD_eq_getElem?_getD]

theorem be64At_encode (n : Nat) (hn : n < 18446744073709551616) (pre r : List Nat) :
    be64At (pre ++ (be64Bytes n ++ r)) pre.length = n := by
  have h0 := getD_append_mid pre (be64Bytes n) r 0 (by simp [be64Bytes])
  have h1 := getD_append_mid pre (be64Bytes n) r 1 (by simp [be64Bytes])
  have h2 := getD_append_mid pre (be64Bytes n) r 2 (by simp [be64Bytes])
  have h3 := getD_append_mid pre (be64Bytes n) r 3 (by simp [be64Bytes])
  have h4 := getD_append_mid pre (be64Bytes n) r 4 (by simp [be64Bytes])
  have h5 := getD_append_mid pre (be64Bytes n) r 5 (by simp [be64Bytes])
  have h6 := getD_append_mid pre (be64Bytes n) r 6 (by simp [be64Bytes])
  have h7 := getD_append_mid pre (be64Bytes n) r 7 (by simp [be64Bytes])
  simp only [Nat.add_zero] at h0
  rw [be64At]
  simp only [be64Bytes] at h0 h1 h2 h3 h4 h5 h6 h7 ⊢
  simp only [List.getD_cons_zero, List.getD_cons_succ] at h0 h1 h2 h3 h4 h5 h6 h7
  rw [h0, h1, h2, h3, h4, h5, h6, h7]
  omega

theorem be32At_encode (n : Nat) (hn : n < 4294967296) (pre r : List Nat) :
    be32At (pre ++ (be32Bytes n ++ r)) pre.length = n := by
  have h0 := getD_append_mid pre (be32Bytes n) r 0 (by simp [be32Bytes])
  have h1 := getD_append_mid pre (be32Bytes n) r 1 (by simp [be32Bytes])
  have h2 := getD_append_mid pre (be32Bytes n) r 2 (by simp [be32Bytes])
  have h3 := getD_append_mid pre (be32Bytes n) r 3 (by simp [be32Bytes])
  simp only [Nat.add_zero] at h0
  rw [be32At]
  simp only [be32Bytes] at h0 h1 h2 h3 ⊢
  simp only [List.getD_cons_zero, List.getD_cons_succ] at h0 h1 h2 h3
  rw [h0, h1, h2, h3]
  omega

theorem encodeValue_length_pos (v : Amf0Value) : 1 ≤ (encodeValue v).length := by
  cases v <;> simp [encodeValue]

theorem encHead_ne_nine (v : Amf0Value) (pre r : List Nat) :
    (pre ++ (encodeValue v ++ r)).getD pre.length 0 ≠ 9 := by
  cases v <;> simp only [encodeValue, List.cons_append, getD_at_length] <;> omega

theorem sizeOf_object_eq (pairs : List (List Nat × Amf0Value)) :
    sizeOf (Amf0Value.object pairs) = 1 + sizeOf pairs := by
  simp

theorem sizeOf_strictArray_eq (items : List Amf0Value) :
    sizeOf (Amf0Value.strictArray items) = 1 + sizeOf items := by
  simp

theorem sizeOf_pair_cons (k : List Nat) (v : Amf0Value)
    (rest : List (List Nat × Amf0Value)) :
    sizeOf v < sizeOf ((k, v) :: rest) ∧ sizeOf rest < sizeOf ((k, v) :: rest) := by
  simp
  omega

theorem sizeOf_item_cons (v : Amf0Value) (rest : List Amf0Value) :
    sizeOf v < sizeOf (v :: rest) ∧ sizeOf rest < sizeOf (v :: rest) := by
  simp
  omega

theorem amfRoundtrip : ∀ N : Nat,
    (∀ v : Amf0Value, sizeOf v ≤ N → wellFormed v = true →
      ∀ pre rest fuel, (encodeValue v).length + rest.length + 1 ≤ fuel →
      decodeF fuel (pre ++ (encodeValue v ++ rest)) pre.length =
        (some v, pre.length + (encodeValue v).length)) ∧
    (∀ pairs : List (List Nat × Amf0Value), sizeOf pairs ≤ N → wfPairs pairs = true →
      ∀ pre rest fuel, (encodePairs pairs).length + 3 + rest.length + 1 ≤ fuel →
      readPropsF fuel (pre ++ (encodePairs pairs ++ ([0, 0, 9] ++ rest))) pre.length =
        (some pairs, pre.length + (encodePairs pairs).length + 3)) ∧
    (∀ items : List Amf0Value, sizeOf items ≤ N → wfItems items = true →
      ∀ pre rest fuel, (encodeItems items).length + rest.length + 2 ≤ fuel →
      readItemsF fuel (pre ++ (encodeItems items ++ rest)) pre.length items.length =
        (items, pre.length + (encodeItems items).length)) := by
  intro N
  induction N using Nat.strong_induction_on with
  | _ N ih =>
    refine ⟨?_, ?_, ?_⟩
    · intro v hsz hwf pre rest fuel hfuel
      obtain ⟨g, rfl⟩ : ∃ g, fuel = g + 1 :=
        ⟨fuel - 1, by have := encodeValue_length_pos v; omega⟩
      cases v with
      | number bits =>
        have hb : bits < 18446744073709551616 := by
          simpa [wellFormed] using hwf
        have hdata : pre ++ (encodeValue (.number bits) ++ rest) =
            pre ++ (0 :: (be64Bytes bits ++ rest)) := by
          simp [encodeValue]
        rw [hdata, decodeF]
        rw [if_neg (by simp only [List.length_append, List.length_cons, be64Bytes,
          List.length_nil]; omega)]
        rw [getD_at_length pre 0 (be64Bytes bits ++ rest)]
        simp +decide only [reduceIte]
        rw [readNumber, if_neg (by simp only [List.length_append, List.length_cons,
          be64Bytes, List.length_nil]; omega)]
        have hb64 : be64At (pre ++ 0 :: (be64Bytes bits ++ rest)) (pre.length + 1) = bits := by
          have h := be64At_encode bits hb (pre ++ [0]) rest
          have he : (pre ++ [0]) ++ (be64Bytes bits ++ rest) =
              pre ++ 0 :: (be64Bytes bits ++ rest) := by simp
          have hl : (pre ++ [0]).length = pre.length + 1 := by simp
          rw [he, hl] at h
          exact h
        rw [hb64]
        simp only [encodeValue, Prod.mk.injEq, List.length_cons, be64Bytes,
          List.length_append, List.length_nil]
        all_goals exact ⟨rfl, by omega⟩
      | boolean b =>
        have hdata : pre ++ (encodeValue (.boolean b) ++ rest) =
            pre ++ (1 :: ((if b then 1 else 0) :: rest)) := by
          simp [encodeValue]
        rw [hdata, decodeF]
        rw [if_neg (by simp only [List.length_append, List.length_cons]; omega)]
        rw [getD_at_length pre 1 ((if b then 1 else 0) :: rest)]
        simp +decide only [reduceIte]
        rw [readBoolean]
        have hbb : ¬((pre ++ 1 :: ((if b then 1 else 0) :: rest)).length ≤ pre.length + 1) := by
          simp only [List.length_append, List.length_cons]
          omega
        rw [if_neg hbb]
        have hg : (pre ++ 1 :: ((if b then 1 else 0) :: rest)).getD (pre.length + 1) 0 =
            (if b then 1 else 0) := by
          have h := getD_at_length (pre ++ [1]) (if b then 1 else 0) rest
          have he : (pre ++ [1]) ++ (if b then 1 else 0) :: rest =
              pre ++ 1 :: ((if b then 1 else 0) :: rest) := by simp
          have hl : (pre ++ [1]).length = pre.length + 1 := by simp
          rw [he, hl] at h
          exact h
        rw [hg]
        cases b <;> simp [encodeValue]
      | str s =>
        have hs65 : s.length ≤ 65535 := by simpa [wellFormed] using hwf
        have hdata : pre ++ (encodeValue (.str s) ++ rest) =
            pre ++ (2 :: (encodeUtf8 s ++ rest)) := by
          simp [encodeValue]
        rw [hdata, decodeF]
        rw [if_neg (by simp only [List.length_append, List.length_cons,
          encodeUtf8_length]; omega)]
        rw [getD_at_length pre 2 (encodeUtf8 s ++ rest)]
        simp +decide only [reduceIte]
        rw [readStringV]
        have hu : readUtf8 (pre ++ 2 :: (encodeUtf8 s ++ rest)) (pre.length + 1) =
            (some s, pre.length + 1 + 2 + s.length) := by
          have h := readUtf8_encode s hs65 (pre ++ [2]) rest
          have he : (pre ++ [2]) ++ (encodeUtf8 s ++ rest) =
              pre ++ 2 :: (encodeUtf8 s ++ rest) := by simp
          have hl : (pre ++ [2]).length = pre.length + 1 := by simp
          rw [he, hl] at h
          exact h
        simp only [hu]
        simp only [encodeValue, Prod.mk.injEq, List.length_cons, encodeUtf8_length]
        all_goals first | omega | exact ⟨rfl, by omega⟩ | exact ⟨trivial, by omega⟩
      | object pairs =>
        have hwfp : wfPairs pairs = true := by simpa [wellFormed] using hwf
        have hdata : pre ++ (encodeValue (.object pairs) ++ rest) =
            pre ++ (3 :: (encodePairs pairs ++ ([0, 0, 9] ++ rest))) := by
          simp [encodeValue]
        rw [hdata, decodeF]
        rw [if_neg (by simp only [List.length_append, List.length_cons,
          List.length_nil]; omega)]
        rw [getD_at_length pre 3 (encodePairs pairs ++ ([0, 0, 9] ++ rest))]
        simp +decide only [reduceIte]
        have hszp : sizeOf pairs < N := by
          have h1 := sizeOf_object_eq pairs
          omega
        have henc : (encodeValue (.object pairs)).length =
            (encodePairs pairs).length + 4 := by
          simp [encodeValue]
        rw [henc] at hfuel
        have h2 := (ih (sizeOf pairs) hszp).2.1 pairs (le_refl _) hwfp (pre ++ [3]) rest g
          (by omega)
        have he : (pre ++ [3]) ++ (encodePairs pairs ++ ([0, 0, 9] ++ rest)) =
            pre ++ 3 :: (encodePairs pairs ++ ([0, 0, 9] ++ rest)) := by simp
        have hl : (pre ++ [3]).length = pre.length + 1 := by simp
        rw [he, hl] at h2
        simp only [h2]
        rw [henc]
        simp only [Prod.mk.injEq]
        all_goals first | omega | exact ⟨rfl, by omega⟩ | exact ⟨trivial, by omega⟩
      | null =>
        have hdata : pre ++ (encodeValue .null ++ rest) = pre ++ (5 :: rest) := by
          simp [encodeValue]
        rw [hdata, decodeF]
        rw [if_neg (by simp only [List.length_append, List.length_cons]; omega)]
        rw [getD_at_length pre 5 rest]
        simp +decide only [reduceIte]
        simp [encodeValue]
      | undefined => simp [wellFormed] at hwf
      | ecmaArray pairs => simp [wellFormed] at hwf
      | strictArray items =>
        have hw : items.length < 4294967296 ∧ wfItems items = true := by
          simpa [wellFormed, Bool.and_eq_true] using hwf
        obtain ⟨hcnt, hwfi⟩ := hw
        have hmod : items.length % 4294967296 = items.length := Nat.mod_eq_of_lt hcnt
        have hdata : pre ++ (encodeValue (.strictArray items) ++ rest) =
            pre ++ (10 :: (be32Bytes items.length ++ (encodeItems items ++ rest))) := by
          simp [encodeValue, hmod, List.append_assoc]
        rw [hdata, decodeF]
        rw [if_neg (by simp only [List.length_append, List.length_cons, be32Bytes,
          List.length_nil]; omega)]
        rw [getD_at_length pre 10 (be32Bytes items.length ++ (encodeItems items ++ rest))]
        simp +decide only [reduceIte]
        rw [if_neg (by simp only [List.length_append, List.length_cons, be32Bytes,
          List.length_nil]; omega)]
        have hb32 : be32At
            (pre ++ 10 :: (be32Bytes items.length ++ (encodeItems items ++ rest)))
            (pre.length + 1) = items.length := by
          have h := be32At_encode items.length hcnt (pre ++ [10]) (encodeItems items ++ rest)
          have he : (pre ++ [10]) ++ (be32Bytes items.length ++ (encodeItems items ++ rest)) =
              pre ++ 10 :: (be32Bytes items.length ++ (encodeItems items ++ rest)) := by simp
          have hl : (pre ++ [10]).length = pre.length + 1 := by simp
          rw [he, hl] at h
          exact h
        rw [hb32]
        have hszi : sizeOf items < N := by
          have h1 := sizeOf_strictArray_eq items
          omega
        have henc : (encodeValue (.strictArray items)).length =
            (encodeItems items).length + 5 := by
          simp [encodeValue, be32Bytes]
        rw [henc] at hfuel
        have h3 := (ih (sizeOf items) hszi).2.2 items (le_refl _) hwfi
          (pre ++ 10 :: be32Bytes items.length) rest g (by omega)
        have he3 : (pre ++ 10 :: be32Bytes items.length) ++ (encodeItems items ++ rest) =
            pre ++ 10 :: (be32Bytes items.length ++ (encodeItems items ++ rest)) := by simp
        have hl3 : (pre ++ 10 :: be32Bytes items.length).length = pre.length + 5 := by
          simp [be32Bytes]
        rw [he3, hl3] at h3
        simp only [h3]
        rw [henc]
        simp only [Prod.mk.injEq]
        all_goals first | omega | exact ⟨rfl, by omega⟩ | exact ⟨trivial, by omega⟩
    · intro pairs hsz hwf pre rest fuel hfuel
      obtain ⟨g, rfl⟩ : ∃ g, fuel = g + 1 := ⟨fuel - 1, by omega⟩
      cases pairs with
      | nil =>
        have hdata : pre ++ (encodePairs [] ++ ([0, 0, 9] ++ rest)) =
            pre ++ ([0, 0, 9] ++ rest) := by
          simp [encodePairs]
        have hc0 := getD_append_mid pre [0, 0, 9] rest 0 (by simp)
        have hc1 := getD_append_mid pre [0, 0, 9] rest 1 (by simp)
        have hc2 := getD_append_mid pre [0, 0, 9] rest 2 (by simp)
        simp only [Nat.add_zero] at hc0
        simp only [List.getD_cons_zero, List.getD_cons_succ] at hc0 hc1 hc2
        have hcond : pre.length + 3 ≤ (pre ++ ([0, 0, 9] ++ rest)).length ∧
            (pre ++ ([0, 0, 9] ++ rest)).getD pre.length 0 = 0 ∧
            (pre ++ ([0, 0, 9] ++ rest)).getD (pre.length + 1) 0 = 0 ∧
            (pre ++ ([0, 0, 9] ++ rest)).getD (pre.length + 2) 0 = 9 :=
          ⟨by simp only [List.length_append, List.length_cons, List.length_nil]; omega,
            hc0, hc1, hc2⟩
        rw [hdata, readPropsF, if_pos hcond]
        simp [encodePairs]
      | cons kv rest' =>
        obtain ⟨k, v⟩ := kv
        have hw : (k.length ≤ 65535 ∧ wellFormed v = true) ∧ wfPairs rest' = true := by
          simpa [wfPairs, Bool.and_eq_true] using hwf
        obtain ⟨⟨hk65, hwfv⟩, hwfr⟩ := hw
        have hexp : encodeUtf8 k = k.length / 256 % 256 :: (k.length % 256 :: k) := by
          simp [encodeUtf8, min_eq_left hk65, be16Bytes]
        have hdata : pre ++ (encodePairs ((k, v) :: rest') ++ ([0, 0, 9] ++ rest)) =
            pre ++ (encodeUtf8 k ++
              (encodeValue v ++ (encodePairs rest' ++ ([0, 0, 9] ++ rest)))) := by
          simp [encodePairs, List.append_assoc]
        rw [hdata, readPropsF]
        set Y : List Nat :=
          encodeValue v ++ (encodePairs rest' ++ ([0, 0, 9] ++ rest)) with hY
        have hb0 : (pre ++ (encodeUtf8 k ++ Y)).getD pre.length 0 =
            k.length / 256 % 256 := by
          rw [hexp]
          simp only [List.cons_append]
          exact getD_at_length pre _ _
        have hb1 : (pre ++ (encodeUtf8 k ++ Y)).getD (pre.length + 1) 0 =
            k.length % 256 := by
          rw [hexp]
          simp only [List.cons_append]
          have h := getD_at_length (pre ++ [k.length / 256 % 256]) (k.length % 256) (k ++ Y)
          have he : (pre ++ [k.length / 256 % 256]) ++ (k.length % 256 :: (k ++ Y)) =
              pre ++ k.length / 256 % 256 :: (k.length % 256 :: (k ++ Y)) := by simp
          have hl : (pre ++ [k.length / 256 % 256]).length = pre.length + 1 := by simp
          rw [he, hl] at h
          exact h
        have h9head : k = [] → (pre ++ (encodeUtf8 k ++ Y)).getD (pre.length + 2) 0 ≠ 9 := by
          intro hknil
          subst hknil
          have h9 := encHead_ne_nine v (pre ++ [0, 0])
            (encodePairs rest' ++ ([0, 0, 9] ++ rest))
          have he : (pre ++ [0, 0]) ++
              (encodeValue v ++ (encodePairs rest' ++ ([0, 0, 9] ++ rest))) =
              pre ++ (encodeUtf8 [] ++ Y) := by
            rw [hY]
            simp [encodeUtf8, be16Bytes]
          have hl : (pre ++ [0, 0]).length = pre.length + 2 := by simp
          rw [he, hl] at h9
          exact h9
        have hnem : ¬(pre.length + 3 ≤ (pre ++ (encodeUtf8 k ++ Y)).length ∧
            (pre ++ (encodeUtf8 k ++ Y)).getD pre.length 0 = 0 ∧
            (pre ++ (encodeUtf8 k ++ Y)).getD (pre.length + 1) 0 = 0 ∧
            (pre ++ (encodeUtf8 k ++ Y)).getD (pre.length + 2) 0 = 9) := by
          rintro ⟨_, h00, h01, h09⟩
          rw [hb0] at h00
          rw [hb1] at h01
          have hk0 : k.length = 0 := by omega
          exact h9head (List.eq_nil_of_length_eq_zero hk0) h09
        rw [if_neg hnem]
        have hu : readUtf8 (pre ++ (encodeUtf8 k ++ Y)) pre.length =
            (some k, pre.length + 2 + k.length) := readUtf8_encode k hk65 pre Y
        simp only [hu]
        have hne2 : ¬(k = [] ∧
            pre.length + 2 + k.length < (pre ++ (encodeUtf8 k ++ Y)).length ∧
            (pre ++ (encodeUtf8 k ++ Y)).getD (pre.length + 2 + k.length) 0 = 9) := by
          rintro ⟨hknil, _, h9⟩
          refine h9head hknil ?_
          subst hknil
          simpa using h9
        rw [if_neg hne2]
        have heplen : (encodePairs ((k, v) :: rest')).length =
            2 + k.length + ((encodeValue v).length + (encodePairs rest').length) := by
          simp only [encodePairs, List.length_append, encodeUtf8_length, min_eq_left hk65]
        rw [heplen] at hfuel
        have hszv : sizeOf v < N := by
          have h1 := (sizeOf_pair_cons k v rest').1
          omega
        have hd := (ih (sizeOf v) hszv).1 v (le_refl _) hwfv (pre ++ encodeUtf8 k)
          (encodePairs rest' ++ ([0, 0, 9] ++ rest)) g
          (by
            have hx : (encodePairs rest' ++ ([0, 0, 9] ++ rest)).length =
                (encodePairs rest').length + (3 + rest.length) := by
              simp
              omega
            omega)
        have he1 : (pre ++ encodeUtf8 k) ++
            (encodeValue v ++ (encodePairs rest' ++ ([0, 0, 9] ++ rest))) =
            pre ++ (encodeUtf8 k ++ Y) := by
          rw [hY]
          simp [List.append_assoc]
        have hl1 : (pre ++ encodeUtf8 k).length = pre.length + 2 + k.length := by
          simp only [List.length_append, encodeUtf8_length, min_eq_left hk65]
          omega
        rw [he1, hl1] at hd
        simp only [hd]
        have hszr : sizeOf rest' < N := by
          have h1 := (sizeOf_pair_cons k v rest').2
          omega
        have hp := (ih (sizeOf rest') hszr).2.1 rest' (le_refl _) hwfr
          (pre ++ encodeUtf8 k ++ encodeValue v) rest g (by omega)
        have he2 : (pre ++ encodeUtf8 k ++ encodeValue v) ++
            (encodePairs rest' ++ ([0, 0, 9] ++ rest)) = pre ++ (encodeUtf8 k ++ Y) := by
          rw [hY]
          simp [List.append_assoc]
        have hl2 : (pre ++ encodeUtf8 k ++ encodeValue v).length =
            pre.length + 2 + k.length + (encodeValue v).length := by
          simp only [List.length_append, encodeUtf8_length, min_eq_left hk65]
          omega
        rw [he2, hl2] at hp
        simp only [hp]
        simp only [Prod.mk.injEq]
        rw [heplen]
        all_goals first | omega | exact ⟨rfl, by omega⟩ | exact ⟨trivial, by omega⟩
    · intro items hsz hwf pre rest fuel hfuel
      obtain ⟨g, rfl⟩ : ∃ g, fuel = g + 1 := ⟨fuel - 1, by omega⟩
      cases items with
      | nil => simp [encodeItems, readItemsF]
      | cons v rest' =>
        have hw : wellFormed v = true ∧ wfItems rest' = true := by
          simpa [wfItems, Bool.and_eq_true] using hwf
        obtain ⟨hwfv, hwfr⟩ := hw
        have hdata : pre ++ (encodeItems (v :: rest') ++ rest) =
            pre ++ (encodeValue v ++ (encodeItems rest' ++ rest)) := by
          simp [encodeItems, List.append_assoc]
        have hlen : (encodeItems (v :: rest')).length =
            (encodeValue v).length + (encodeItems rest').length := by
          simp [encodeItems]
        rw [hdata]
        simp only [List.length_cons]
        rw [readItemsF]
        rw [hlen] at hfuel
        have hvpos := encodeValue_length_pos v
        have hszv : sizeOf v < N := by
          have h1 := (sizeOf_item_cons v rest').1
          omega
        have hd := (ih (sizeOf v) hszv).1 v (le_refl _) hwfv pre
          (encodeItems rest' ++ rest) g
          (by
            have hx : (encodeItems rest' ++ rest).length =
                (encodeItems rest').length + rest.length := by simp
            omega)
        simp only [hd]
        have hszr : sizeOf rest' < N := by
          have h1 := (sizeOf_item_cons v rest').2
          omega
        have hr := (ih (sizeOf rest') hszr).2.2 rest' (le_refl _) hwfr
          (pre ++ encodeValue v) rest g (by omega)
        have he : (pre ++ encodeValue v) ++ (encodeItems rest' ++ rest) =
            pre ++ (encodeValue v ++ (encodeItems rest' ++ rest)) := by simp
        have hl : (pre ++ encodeValue v).length = pre.length + (encodeValue v).length := by
          simp
        rw [he, hl] at hr
        simp only [hr]
        simp only [Prod.mk.injEq]
        rw [hlen]
        all_goals first | omega | exact ⟨rfl, by omega⟩ | exact ⟨trivial, by omega⟩

/-- C2 (amended): for every value built from the encoder-lossless
constructors (Number, Boolean, String, Null, Object, StrictArray) whose
strings and object keys are at most 65535 bytes and whose strict arrays
have fewer than 2^32 items — `wellFormed` — decoding the encoder's bytes
returns exactly that value, consuming all of them. -/
theorem c2_amf0_roundtrip (v : Amf0Value) (h : wellFormed v = true) :
    Amf0Decoder.decode (encodeValue v) 0 = (some v, (encodeValue v).length) := by
  have hr := (amfRoundtrip (sizeOf v)).1 v (le_refl _) h [] [] ((encodeValue v).length + 1)
    (by simp)
  rw [Amf0Decoder.decode]
  simp only [List.nil_append, List.append_nil, List.length_nil, Nat.zero_add] at hr
  simp only [Nat.sub_zero]
  exact hr

/-- C2 witness: the amended round trip at a small object. -/
theorem c2_amf0_roundtrip_witness :
    wellFormed (Amf0Value.object [([97], Amf0Value.number 3)]) = true ∧
    Amf0Decoder.decode (encodeValue (Amf0Value.object [([97], Amf0Value.number 3)])) 0 =
      (some (Amf0Value.object [([97], Amf0Value.number 3)]),
        (encodeValue (Amf0Value.object [([97], Amf0Value.number 3)])).length) :=
  ⟨rfl, c2_amf0_roundtrip (Amf0Value.object [([97], Amf0Value.number 3)]) rfl⟩

theorem decodeF_encode_str_gen (s pre rest : List Nat) (fuel : Nat)
    (hfuel : (encodeValue (.str s)).length + rest.length + 1 ≤ fuel) :
    decodeF fuel (pre ++ (encodeValue (.str s) ++ rest)) pre.length =
      (some (.str (s.take (min s.length 65535))), pre.length + 3 + min s.length 65535) := by
  obtain ⟨g, rfl⟩ : ∃ g, fuel = g + 1 :=
    ⟨fuel - 1, by have := encodeValue_length_pos (Amf0Value.str s); omega⟩
  have hdata : pre ++ (encodeValue (.str s) ++ rest) =
      pre ++ (2 :: (encodeUtf8 s ++ rest)) := by
    simp [encodeValue]
  rw [hdata, decodeF]
  rw [if_neg (by simp only [List.length_append, List.length_cons,
    encodeUtf8_length]; omega)]
  rw [getD_at_length pre 2 (encodeUtf8 s ++ rest)]
  simp +decide only [reduceIte]
  rw [readStringV]
  have hu := readUtf8_encode_gen s (pre ++ [2]) rest
  have he : (pre ++ [2]) ++ (encodeUtf8 s ++ rest) =
      pre ++ 2 :: (encodeUtf8 s ++ rest) := by simp
  have hl : (pre ++ [2]).length = pre.length + 1 := by simp
  rw [he, hl] at hu
  simp only [hu]

/-- C2 counterexample to the unrestricted claim: a 70000-byte string (70000
repetitions of `a`) is truncated by `write_utf8` to 65535 bytes, so the
decode of its encoding is the 65535-byte string, not the original value. -/
theorem decode_encode_str (s : List Nat) :
    Amf0Decoder.decode (encodeValue (.str s)) 0 =
      (some (.str (s.take (min s.length 65535))), 3 + min s.length 65535) := by
  have h := decodeF_encode_str_gen s [] [] ((encodeValue (.str s)).length + 1) (by simp)
  rw [Amf0Decoder.decode]
  simp only [List.nil_append, List.append_nil, List.length_nil, Nat.zero_add,
    Nat.sub_zero] at h ⊢
  exact h

theorem c2_long_string_counterexample :
    (Amf0Decoder.decode (encodeValue (Amf0Value.str (List.replicate 70000 97))) 0).1 =
      some (Amf0Value.str (List.replicate 65535 97)) ∧
    Amf0Value.str (List.replicate 65535 97) ≠ Amf0Value.str (List.replicate 70000 97) := by
  constructor
  · rw [decode_encode_str]
    dsimp only
    rw [List.length_replicate]
    rw [show min (70000 : Nat) 65535 = 65535 by omega]
    rw [List.take_replicate]
    rw [show min (65535 : Nat) 70000 = 65535 by omega]
  · intro h
    injection h with h2
    have h3 := congrArg List.length h2
    rw [List.length_replicate, List.length_replicate] at h3
    omega

/-! ## `src/diagnostics.rs` — StreamDiagnostics::check_all (C5)

`Instant`s are milliseconds as `Nat` (`duration_since` saturates, matching
`Nat` subtraction); `f64` quantities are exact rationals.  The only place
where exact rational arithmetic can deviate from IEEE doubles is the
`max_interval * 0.9` warning threshold, which C5 does not touch.  Rust's
`format!` on integers is decimal `toString`; `{:.n}` floating formats are
modelled by decimal rounding (`fmtFixed`), again only reaching messages
whose fixed prefix alone decides every comparison made here. -/

inductive Severity where
  | info
  | warning
  | error
deriving DecidableEq, Repr

/-- Rank in the derived `Ord` order `Info < Warning < Error`. -/
def Severity.rank : Severity → Nat
  | .info => 0
  | .warning => 1
  | .error => 2

structure Diagnostic where
  severity : Severity
  category : String
  message : String
deriving DecidableEq, Repr

/-- `Diagnostic::info`. -/
def Diagnostic.mkInfo (category message : String) : Diagnostic :=
  ⟨.info, category, message⟩

/-- `Diagnostic::warning`. -/
def Diagnostic.mkWarning (category message : String) : Diagnostic :=
  ⟨.warning, category, message⟩

/-- `Diagnostic::error`. -/
def Diagnostic.mkError (category message : String) : Diagnostic :=
  ⟨.error, category, message⟩

inductive ServiceProfile where
  | twitch
  | youtube
  | generic
deriving DecidableEq, Repr

/-- `ServiceProfile::name`. -/
def ServiceProfile.name : ServiceProfile → String
  | .twitch => "Twitch"
  | .youtube => "YouTube"
  | .generic => "Generic"

structure StreamDiagnostics where
  profile : ServiceProfile
  avcSeqHeaderReceived : Bool
  avcSeqHeaderTime : Option Nat
  aacSeqHeaderReceived : Bool
  aacSeqHeaderTime : Option Nat
  firstKeyframeTime : Option Nat
  streamStartTime : Option Nat
  lastVideoTs : Option Nat
  lastAudioTs : Option Nat
  videoTsRollbacks : Nat
  audioTsRollbacks : Nat
  maxVideoTsGap : Nat
  maxAudioTsGap : Nat
  maxAvDesyncMs : Int
  metadataReceived : Bool
  metadataHasDimensions : Bool
  metadataHasFramerate : Bool
  metadataHasBitrate : Bool
  hasBFrames : Bool
  keyframeIntervals : List Rat
  diagnostics : List Diagnostic
  lastCheckTime : Option Nat
deriving DecidableEq, Repr

/-- `StreamDiagnostics::new()`. -/
def StreamDiagnostics.new : StreamDiagnostics :=
  ⟨.generic, false, none, false, none, none, none, none, none, 0, 0, 0, 0, 0,
    false, false, false, false, false, [], [], none⟩

/-- Round a rational to the nearest integer, halves away from zero upward. -/
def roundRat (q : Rat) : Int :=
  if q - (q.floor : Rat) ≥ 1 / 2 then q.floor + 1 else q.floor

/-- Decimal fixed-point rendering of a rational, modelling `{:.1}`-style
formats (`prec` is the number of decimal places). -/
def fmtFixed (prec : Nat) (q : Rat) : String :=
  if prec = 0 then toString (roundRat q)
  else
    toString (roundRat (q * (10 ^ prec : Nat)) / (10 ^ prec : Int)) ++ "." ++
      toString ((roundRat (q * (10 ^ prec : Nat)) % (10 ^ prec : Int)).natAbs)

/-- Rust `str::contains` on a literal needle. -/
def strContains (hay needle : String) : Bool :=
  (List.range (hay.data.length + 1)).any
    (fun i => needle.data.isPrefixOf (hay.data.drop i))

/-- The odd-dimensions message (diagnostics.rs 318). -/
def resolutionMsg (w h : Nat) : String :=
  "Resolution " ++ toString w ++ "x" ++ toString h ++
    " has odd dimensions (must be even)"

/-- The resolution whitelist (diagnostics.rs 310-314). -/
def isStandard (w h : Nat) : Bool :=
  (w == 1920 && h == 1080) || (w == 1280 && h == 720) || (w == 854 && h == 480) ||
    (w == 640 && h == 360) || (w == 2560 && h == 1440) || (w == 3840 && h == 2160) ||
    (w == 1080 && h == 1920) || (w == 720 && h == 1280)

/-- Sequence-header checks (diagnostics.rs 230-235), one segment each. -/
def segAvc (s : StreamDiagnostics) : List Diagnostic :=
  if s.avcSeqHeaderReceived then []
  else [Diagnostic.mkError "Video" "No AVC sequence header received"]

def segAac (s : StreamDiagnostics) : List Diagnostic :=
  if s.aacSeqHeaderReceived then []
  else [Diagnostic.mkError "Audio" "No AAC sequence header received"]

/-- First-keyframe timing (diagnostics.rs 238-254). -/
def segFirstKf (s : StreamDiagnostics) (now : Nat) : List Diagnostic :=
  match s.streamStartTime with
  | none => []
  | some start =>
    if s.firstKeyframeTime.isNone then
      if ((now - start : Nat) : Rat) / 1000 > 2 then
        [Diagnostic.mkWarning "Video"
          ("No keyframe received after " ++ fmtFixed 1 (((now - start : Nat) : Rat) / 1000) ++ "s")]
      else []
    else
      match s.firstKeyframeTime with
      | some kf =>
        if ((kf - start : Nat) : Rat) / 1000 > 1 then
          [Diagnostic.mkWarning "Video"
            ("First keyframe took " ++ fmtFixed 2 (((kf - start : Nat) : Rat) / 1000) ++
              "s to arrive")]
        else []
      | none => []

/-- Keyframe-interval check (diagnostics.rs 257-277). -/
def segKfInterval (profile : ServiceProfile) (cki : Option Rat) : List Diagnostic :=
  match cki with
  | none => []
  | some interval =>
    if interval > (if profile = .twitch then (2 : Rat) else 4) then
      [Diagnostic.mkError "Video"
        ("Keyframe interval " ++ fmtFixed 1 interval ++ "s exceeds " ++ profile.name ++
          " max (" ++ fmtFixed 0 (if profile = .twitch then (2 : Rat) else 4) ++ "s)")]
    else if interval > (if profile = .twitch then (2 : Rat) else 4) * (9 / 10) then
      [Diagnostic.mkWarning "Video"
        ("Keyframe interval " ++ fmtFixed 1 interval ++ "s near " ++ profile.name ++
          " limit (" ++ fmtFixed 0 (if profile = .twitch then (2 : Rat) else 4) ++ "s)")]
    else []

/-- B-frame advisory (diagnostics.rs 280-295). -/
def segBFrames (s : StreamDiagnostics) : List Diagnostic :=
  if s.hasBFrames then
    match s.profile with
    | .twitch => [Diagnostic.mkWarning "Video" "B-frames detected (may increase latency on Twitch)"]
    | _ => [Diagnostic.mkInfo "Video" "B-frames detected"]
  else []

/-- Baseline-profile advisory (diagnostics.rs 298-305). -/
def segVideoProfile (vp : Option String) : List Diagnostic :=
  match vp with
  | none => []
  | some p =>
    if strContains p "Baseline" then
      [Diagnostic.mkInfo "Video" "Baseline profile (consider Main/High for better compression)"]
    else []

/-- Resolution check (diagnostics.rs 308-321): the unparenthesized
`!is_standard && w % 2 != 0 || h % 2 != 0`. -/
def segResolution (vw vh : Option Nat) : List Diagnostic :=
  match vw, vh with
  | some w, some h =>
    if (!isStandard w h && w % 2 != 0) || h % 2 != 0 then
      [Diagnostic.mkError "Video" (resolutionMsg w h)]
    else []
  | _, _ => []

/-- Audio sample-rate check (diagnostics.rs 324-336). -/
def segSampleRate (profile : ServiceProfile) (osr : Option Nat) : List Diagnostic :=
  match osr with
  | none => []
  | some sr =>
    if !(match profile with
        | .twitch => sr == 44100 || sr == 48000
        | .youtube => sr == 44100 || sr == 48000 || sr == 96000
        | .generic => sr == 22050 || sr == 44100 || sr == 48000 || sr == 96000) then
      [Diagnostic.mkError "Audio"
        (toString sr ++ " Hz sample rate not supported by " ++ profile.name)]
    else []

/-- Audio channel check (diagnostics.rs 339-356). -/
def segChannels (profile : ServiceProfile) (och : Option Nat) : List Diagnostic :=
  match och with
  | none => []
  | some ch =>
    if ch = 1 then
      [Diagnostic.mkWarning "Audio" "Mono audio (stereo recommended for streaming)"]
    else if ch > 2 then
      match profile with
      | .twitch => [Diagnostic.mkError "Audio"
          (toString ch ++ " channels not supported by Twitch (max 2)")]
      | _ => []
    else []

/-- AAC profile advisories (diagnostics.rs 359-376). -/
def segAacProfile (profile : ServiceProfile) (oap : Option String) : List Diagnostic :=
  match oap with
  | none => []
  | some p =>
    if strContains p "Main" then
      [Diagnostic.mkWarning "Audio" "AAC Main profile (AAC-LC recommended for compatibility)"]
    else if strContains p "HE-AAC" || strContains p "SBR" then
      match profile with
      | .twitch => [Diagnostic.mkWarning "Audio" "HE-AAC may have compatibility issues on Twitch"]
      | _ => []
    else []

/-- Timestamp issue checks (diagnostics.rs 379-412). -/
def segVideoRollbacks (s : StreamDiagnostics) : List Diagnostic :=
  if s.videoTsRollbacks > 0 then
    [Diagnostic.mkError "Timing"
      (toString s.videoTsRollbacks ++ " video timestamp rollback(s) detected")]
  else []

def segAudioRollbacks (s : StreamDiagnostics) : List Diagnostic :=
  if s.audioTsRollbacks > 0 then
    [Diagnostic.mkError "Timing"
      (toString s.audioTsRollbacks ++ " audio timestamp rollback(s) detected")]
  else []

def segVideoGap (s : StreamDiagnostics) : List Diagnostic :=
  if s.maxVideoTsGap > 1000 then
    [Diagnostic.mkWarning "Timing"
      ("Large video timestamp gap detected (" ++ toString s.maxVideoTsGap ++ "ms)")]
  else []

def segAudioGap (s : StreamDiagnostics) : List Diagnostic :=
  if s.maxAudioTsGap > 1000 then
    [Diagnostic.mkWarning "Timing"
      ("Large audio timestamp gap detected (" ++ toString s.maxAudioTsGap ++ "ms)")]
  else []

def segDesync (s : StreamDiagnostics) : List Diagnostic :=
  if s.maxAvDesyncMs.natAbs > 500 then
    [Diagnostic.mkWarning "Timing"
      ("A/V desync detected (" ++ toString s.maxAvDesyncMs ++ "ms)")]
  else []

/-- Metadata check (diagnostics.rs 415-426): integer seconds, truncated. -/
def segMetadata (s : StreamDiagnostics) (now : Nat) : List Diagnostic :=
  if !s.metadataReceived then
    match s.streamStartTime with
    | some start =>
      if (now - start) / 1000 > 2 then
        [Diagnostic.mkWarning "Metadata" "No onMetaData received from encoder"]
      else []
    | none => []
  else []

/-- `sort_by(|a, b| b.severity.cmp(&a.severity))`: descending severity. -/
def sortDiags (l : List Diagnostic) : List Diagnostic :=
  l.mergeSort (fun a b => b.severity.rank ≤ a.severity.rank)

/-- The pushes of one full (unthrottled) `check_all` pass, in source order. -/
def checkAllDiags (s : StreamDiagnostics) (now : Nat) (vw vh : Option Nat)
    (vp : Option String) (osr och : Option Nat) (oap : Option String)
    (cki : Option Rat) : List Diagnostic :=
  segAvc s ++ segAac s ++ segFirstKf s now ++ segKfInterval s.profile cki ++
    segBFrames s ++ segVideoProfile vp ++ segResolution vw vh ++
    segSampleRate s.profile osr ++ segChannels s.profile och ++
    segAacProfile s.profile oap ++ segVideoRollbacks s ++ segAudioRollbacks s ++
    segVideoGap s ++ segAudioGap s ++ segDesync s ++ segMetadata s now

/-- `StreamDiagnostics::check_all` (diagnostics.rs 207-432): throttle to one
pass per 500 ms (returning the cached list), else clear, run every check,
sort by descending severity, cache and return. -/
def checkAll (s : StreamDiagnostics) (now : Nat) (vw vh : Option Nat)
    (vp : Option String) (osr och : Option Nat) (oap : Option String)
    (cki : Option Rat) : StreamDiagnostics × List Diagnostic :=
  match s.lastCheckTime with
  | some last =>
    if now - last < 500 then (s, s.diagnostics)
    else
      ({ s with
          lastCheckTime := some now
          diagnostics := sortDiags (checkAllDiags s now vw vh vp osr och oap cki) },
        sortDiags (checkAllDiags s now vw vh vp osr och oap cki))
  | none =>
    ({ s with
        lastCheckTime := some now
        diagnostics := sortDiags (checkAllDiags s now vw vh vp osr och oap cki) },
      sortDiags (checkAllDiags s now vw vh vp osr och oap cki))

/-- If `s.lastCheckTime` is unset or at least 500 ms old, `check_all` runs a
full pass instead of returning the cached list. -/
def notThrottled (s : StreamDiagnostics) (now : Nat) : Bool :=
  match s.lastCheckTime with
  | none => true
  | some last => 500 ≤ now - last

theorem mem_sortDiags (d : Diagnostic) (l : List Diagnostic) :
    d ∈ sortDiags l ↔ d ∈ l := by
  rw [sortDiags]
  exact List.mem_mergeSort

theorem headAppend (p r : String) (c : Char) (hc : p.data.head? = some c) :
    (p ++ r).data.head? = some c := by
  rw [String.data_append]
  cases hd : p.data with
  | nil =>
    rw [hd] at hc
    simp at hc
  | cons x t =>
    rw [hd] at hc
    simp only [List.head?_cons, Option.some.injEq] at hc
    rw [List.cons_append, List.head?_cons, hc]

theorem resolutionMsg_head (w h : Nat) : (resolutionMsg w h).data.head? = some 'R' := by
  rw [resolutionMsg]
  apply headAppend
  apply headAppend
  apply headAppend
  apply headAppend
  rfl

theorem kfMsg_head (a b c : String) :
    ("Keyframe interval " ++ a ++ "s exceeds " ++ b ++ " max (" ++ c ++ "s)").data.head? =
      some 'K' := by
  apply headAppend
  apply headAppend
  apply headAppend
  apply headAppend
  apply headAppend
  rfl

theorem resolutionMsg_ne_avc (w h : Nat) :
    resolutionMsg w h ≠ "No AVC sequence header received" := by
  intro he
  have h1 : (resolutionMsg w h).data.head? =
      ("No AVC sequence header received" : String).data.head? := by rw [he]
  rw [resolutionMsg_head] at h1
  exact absurd h1 (by decide)

theorem resolutionMsg_ne_kf (w h : Nat) (a b c : String) :
    resolutionMsg w h ≠ ("Keyframe interval " ++ a ++ "s exceeds " ++ b ++ " max (" ++ c ++ "s)") := by
  intro he
  have h1 : (resolutionMsg w h).data.head? =
      ("Keyframe interval " ++ a ++ "s exceeds " ++ b ++ " max (" ++ c ++ "s)").data.head? := by
    rw [he]
  rw [resolutionMsg_head, kfMsg_head] at h1
  exact absurd h1 (by decide)

theorem res_not_mem_segAvc (w h : Nat) (s : StreamDiagnostics) :
    Diagnostic.mkError "Video" (resolutionMsg w h) ∉ segAvc s := by
  rw [segAvc]
  split
  · simp
  · simp only [List.mem_singleton]
    intro he
    have hm := congrArg Diagnostic.message he
    simp only [Diagnostic.mkError] at hm
    exact resolutionMsg_ne_avc w h hm

theorem res_not_mem_segAac (w h : Nat) (s : StreamDiagnostics) :
    Diagnostic.mkError "Video" (resolutionMsg w h) ∉ segAac s := by
  rw [segAac]
  repeat' split
  all_goals simp [Diagnostic.mkError]

theorem res_not_mem_segFirstKf (w h : Nat) (s : StreamDiagnostics) (now : Nat) :
    Diagnostic.mkError "Video" (resolutionMsg w h) ∉ segFirstKf s now := by
  rw [segFirstKf]
  repeat' split
  all_goals simp [Diagnostic.mkError, Diagnostic.mkWarning]

theorem res_not_mem_segKfInterval (w h : Nat) (p : ServiceProfile) (cki : Option Rat) :
    Diagnostic.mkError "Video" (resolutionMsg w h) ∉ segKfInterval p cki := by
  cases cki with
  | none => rw [segKfInterval]; exact List.not_mem_nil _
  | some interval =>
    rw [segKfInterval]
    intro hm
    by_cases hc1 : interval > (if p = ServiceProfile.twitch then (2 : Rat) else 4)
    · rw [if_pos hc1] at hm
      rw [List.mem_singleton] at hm
      have hmsg := congrArg Diagnostic.message hm
      simp only [Diagnostic.mkError] at hmsg
      exact resolutionMsg_ne_kf w h _ _ _ hmsg
    · rw [if_neg hc1] at hm
      by_cases hc2 : interval >
          (if p = ServiceProfile.twitch then (2 : Rat) else 4) * (9 / 10)
      · rw [if_pos hc2] at hm
        rw [List.mem_singleton] at hm
        have hs := congrArg Diagnostic.severity hm
        simp only [Diagnostic.mkError, Diagnostic.mkWarning] at hs
        exact absurd hs (by decide)
      · rw [if_neg hc2] at hm
        exact List.not_mem_nil _ hm

theorem res_not_mem_segBFrames (w h : Nat) (s : StreamDiagnostics) :
    Diagnostic.mkError "Video" (resolutionMsg w h) ∉ segBFrames s := by
  rw [segBFrames]
  repeat' split
  all_goals simp [Diagnostic.mkError, Diagnostic.mkWarning, Diagnostic.mkInfo]

theorem res_not_mem_segVideoProfile (w h : Nat) (vp : Option String) :
    Diagnostic.mkError "Video" (resolutionMsg w h) ∉ segVideoProfile vp := by
  rw [segVideoProfile.eq_def]
  repeat' split
  all_goals simp [Diagnostic.mkError, Diagnostic.mkInfo]

theorem res_not_mem_segSampleRate (w h : Nat) (p : ServiceProfile) (osr : Option Nat) :
    Diagnostic.mkError "Video" (resolutionMsg w h) ∉ segSampleRate p osr := by
  rw [segSampleRate.eq_def]
  repeat' split
  all_goals simp [Diagnostic.mkError]

theorem res_not_mem_segChannels (w h : Nat) (p : ServiceProfile) (och : Option Nat) :
    Diagnostic.mkError "Video" (resolutionMsg w h) ∉ segChannels p och := by
  rw [segChannels.eq_def]
  repeat' split
  all_goals simp [Diagnostic.mkError, Diagnostic.mkWarning]

theorem res_not_mem_segAacProfile (w h : Nat) (p : ServiceProfile) (oap : Option String) :
    Diagnostic.mkError "Video" (resolutionMsg w h) ∉ segAacProfile p oap := by
  rw [segAacProfile.eq_def]
  repeat' split
  all_goals simp [Diagnostic.mkError, Diagnostic.mkWarning]

theorem res_not_mem_segVideoRollbacks (w h : Nat) (s : StreamDiagnostics) :
    Diagnostic.mkError "Video" (resolutionMsg w h) ∉ segVideoRollbacks s := by
  rw [segVideoRollbacks]
  repeat' split
  all_goals simp [Diagnostic.mkError]

theorem res_not_mem_segAudioRollbacks (w h : Nat) (s : StreamDiagnostics) :
    Diagnostic.mkError "Video" (resolutionMsg w h) ∉ segAudioRollbacks s := by
  rw [segAudioRollbacks]
  repeat' split
  all_goals simp [Diagnostic.mkError]

theorem res_not_mem_segVideoGap (w h : Nat) (s : StreamDiagnostics) :
    Diagnostic.mkError "Video" (resolutionMsg w h) ∉ segVideoGap s := by
  rw [segVideoGap]
  repeat' split
  all_goals simp [Diagnostic.mkError, Diagnostic.mkWarning]

theorem res_not_mem_segAudioGap (w h : Nat) (s : StreamDiagnostics) :
    Diagnostic.mkError "Video" (resolutionMsg w h) ∉ segAudioGap s := by
  rw [segAudioGap]
  repeat' split
  all_goals simp [Diagnostic.mkError, Diagnostic.mkWarning]

theorem res_not_mem_segDesync (w h : Nat) (s : StreamDiagnostics) :
    Diagnostic.mkError "Video" (resolutionMsg w h) ∉ segDesync s := by
  rw [segDesync]
  repeat' split
  all_goals simp [Diagnostic.mkError, Diagnostic.mkWarning]

theorem res_not_mem_segMetadata (w h : Nat) (s : StreamDiagnostics) (now : Nat) :
    Diagnostic.mkError "Video" (resolutionMsg w h) ∉ segMetadata s now := by
  rw [segMetadata]
  repeat' split
  all_goals simp [Diagnostic.mkError, Diagnostic.mkWarning]

theorem res_mem_segResolution (w h : Nat) :
    (Diagnostic.mkError "Video" (resolutionMsg w h) ∈ segResolution (some w) (some h)) ↔
      ((!isStandard w h && w % 2 != 0) || h % 2 != 0) = true := by
  rw [segResolution]
  split
  · rename_i hc
    exact iff_of_true (List.mem_singleton_self _) hc
  · rename_i hc
    exact iff_of_false (by simp) hc

theorem oddCondition_equiv (w h : Nat) :
    (((!isStandard w h && w % 2 != 0) || h % 2 != 0) = true) ↔
      ((w % 2 ≠ 0 ∨ h % 2 ≠ 0) ∧ isStandard w h = false) := by
  have hstd : isStandard w h = true → h % 2 = 0 := by
    intro hs
    simp only [isStandard, Bool.or_eq_true, Bool.and_eq_true, beq_iff_eq] at hs
    omega
  simp only [Bool.or_eq_true, Bool.and_eq_true, Bool.not_eq_true', bne_iff_ne]
  constructor
  · rintro (⟨hns, hw⟩ | hh)
    · exact ⟨Or.inl hw, hns⟩
    · refine ⟨Or.inr hh, ?_⟩
      cases hstd2 : isStandard w h
      · rfl
      · exact absurd (hstd hstd2) hh
  · rintro ⟨hw | hh, hns⟩
    · exact Or.inl ⟨hns, hw⟩
    · exact Or.inr hh

/-- C5: whenever the 500 ms throttle does not short-circuit `check_all`
(it would then return the cached previous list unchanged), the call with
`Some w`/`Some h` returns a list containing the odd-dimensions Error
exactly when the width or the height is odd and `(w, h)` is not one of the
whitelisted resolutions.  The source condition
`!is_standard && w % 2 != 0 || h % 2 != 0` parses as
`(!is_standard && w % 2 != 0) || h % 2 != 0`, but every whitelisted
resolution has an even height, so the two readings agree on all inputs. -/
theorem c5_odd_dimensions (s : StreamDiagnostics) (now : Nat) (w h : Nat)
    (vp : Option String) (osr och : Option Nat) (oap : Option String) (cki : Option Rat)
    (hthr : notThrottled s now = true) :
    (Diagnostic.mkError "Video" (resolutionMsg w h) ∈
        (checkAll s now (some w) (some h) vp osr och oap cki).2) ↔
      ((w % 2 ≠ 0 ∨ h % 2 ≠ 0) ∧ isStandard w h = false) := by
  have hrun : (checkAll s now (some w) (some h) vp osr och oap cki).2 =
      sortDiags (checkAllDiags s now (some w) (some h) vp osr och oap cki) := by
    rw [checkAll]
    rcases hl : s.lastCheckTime with _ | last
    · rfl
    · rw [notThrottled, hl] at hthr
      simp only [hl]
      rw [if_neg (by simp only [decide_eq_true_eq] at hthr; omega)]
  rw [hrun, mem_sortDiags, checkAllDiags]
  simp only [List.mem_append]
  simp only [res_not_mem_segAvc w h s, res_not_mem_segAac w h s,
    res_not_mem_segFirstKf w h s now, res_not_mem_segKfInterval w h s.profile cki,
    res_not_mem_segBFrames w h s, res_not_mem_segVideoProfile w h vp,
    res_not_mem_segSampleRate w h s.profile osr, res_not_mem_segChannels w h s.profile och,
    res_not_mem_segAacProfile w h s.profile oap, res_not_mem_segVideoRollbacks w h s,
    res_not_mem_segAudioRollbacks w h s, res_not_mem_segVideoGap w h s,
    res_not_mem_segAudioGap w h s, res_not_mem_segDesync w h s,
    res_not_mem_segMetadata w h s now, res_mem_segResolution w h, false_or, or_false]
  exact oddCondition_equiv w h

/-- C5 witness: a fresh state, width 641 and height 360 (odd width,
non-whitelisted), where the diagnostic is emitted. -/
theorem c5_odd_dimensions_witness :
    notThrottled StreamDiagnostics.new 0 = true ∧
      ((Diagnostic.mkError "Video" (resolutionMsg 641 360) ∈
          (checkAll StreamDiagnostics.new 0 (some 641) (some 360)
            none none none none none).2) ↔
        ((641 % 2 ≠ 0 ∨ 360 % 2 ≠ 0) ∧ isStandard 641 360 = false)) :=
  ⟨by decide, c5_odd_dimensions StreamDiagnostics.new 0 641 360 none none none none none
    (by decide)⟩
